import Mathlib

/-!
Verification development for the OpineDB in-memory engine (`opine_obj.py`).

The Python code is shallowly embedded as follows.

Scalars: Python floats are modelled as exact rationals; the external numeric
library functions that are not rational (square root, base-2 logarithm,
exponential) are fields of the environment structures, as are the other
external collaborators of the engine (the gensim tokenizer
`simple_preprocess`, the gensim BM25 scorer, the sklearn KDTree query, the
two trained sklearn logistic-regression predictors, the VADER sentiment
score stored per review, and Python float parsing).  Everything the engine
itself computes is translated directly from the source.

Strings: Python strings are modelled as lists of characters (`Str` below),
so that splitting, lower-casing and membership are structurally computable.

Fallible code: Python statements that can raise (unguarded dictionary
lookups, tuple-unpacking of a split, `float(...)` conversion, calling
`.lower()` on a non-string) are modelled in the `Except String` monad.

Mutable state: the membership cache, the interpretation caches and the
entity store (which `get_features_summary` mutates by sorting a marker list
in place) are threaded explicitly.
-/

namespace OpineDB

set_option synthInstance.maxSize 1024

/-- Python strings are modelled as lists of characters. -/
abbrev Str := List Char

/-- Model of Python `str.lower` (restricted to the per-character lowering). -/
def toLow (s : Str) : Str := s.map Char.toLower

/-- Model of Python `str.split(sep)` for a single-character separator:
keeps empty fields, `[] ↦ [[]]`. -/
def splitCh (c : Char) : Str → List Str
  | [] => [[]]
  | a :: rest =>
    if a = c then [] :: splitCh c rest
    else
      match splitCh c rest with
      | [] => [[a]]
      | h :: t => (a :: h) :: t

/-- Association-list lookup (model of a Python dictionary lookup that may miss). -/
def lookupA {α β : Type} [DecidableEq α] : List (α × β) → α → Option β
  | [], _ => none
  | (k, v) :: rest, a => if k = a then some v else lookupA rest a

/-- Association-list update of the first entry holding the given key (a
Python dictionary holds one slot per key); a missing key leaves the list
unchanged. -/
def updFirst {α β : Type} [DecidableEq α] : List (α × β) → α → β → List (α × β)
  | [], _, _ => []
  | (k, v) :: rest, a, b => if k = a then (a, b) :: rest else (k, v) :: updFirst rest a b

/-- Vectors (numpy arrays) are lists of rationals; the fixed dimension (300 in
the deployed model) is a field of the environments. -/
abbrev Vec := List ℚ

/-- Pointwise vector addition (numpy `+` on equal-length arrays). -/
def vadd (v w : Vec) : Vec := List.zipWith (· + ·) v w

/-- Scalar multiplication of a vector. -/
def smul (c : ℚ) (v : Vec) : Vec := v.map (c * ·)

/-- Dot product. -/
def dotQ (v w : Vec) : ℚ := (List.zipWith (· * ·) v w).sum

/-- Sum of squares; `np.linalg.norm` is `sqrt` of this. -/
def sumSq (v : Vec) : ℚ := (v.map fun x => x * x).sum

/-- The all-zero vector `np.zeros(d)`. -/
def zerosV (d : Nat) : Vec := List.replicate d 0

/-! ### Stable sort by a rational key

Python `sorted(l, key=k)` is a stable ascending sort.  A stable ascending
sort of a list is unique, so the insertion sort below is pointwise equal to
the Python result. -/

/-- Insert into a sorted list, before the first element of key not smaller:
this is the stable position. -/
def insKey {α : Type} (k : α → ℚ) (x : α) : List α → List α
  | [] => [x]
  | y :: ys => if k x ≤ k y then x :: y :: ys else y :: insKey k x ys

/-- Stable ascending sort by a rational key, the model of Python `sorted`. -/
def sortByKey {α : Type} (k : α → ℚ) : List α → List α
  | [] => []
  | x :: xs => insKey k x (sortByKey k xs)

/-! ### Phrase Embedding Service (`SimpleOpine.phrase2vec`, lines 388-413)

The word2vec model, the token IDF table, the gensim tokenizer and the
numeric square root are external collaborators, modelled at their boundary
as fields of `EmbedEnv`.  The unguarded Python lookup `self.idf[w]` (only
membership in `self.model.wv` is checked) is the `Except` error path. -/

structure EmbedEnv where
  dim : Nat
  wv : Str → Option Vec
  idfTok : Str → Option ℚ
  tokenize : Str → List Str
  sqrtQ : ℚ → ℚ

/-- One iteration of the accumulation loop of `phrase2vec`: a token outside
the word2vec vocabulary is skipped, a token inside it has its IDF looked up
without a guard (`self.idf[w]`, a KeyError when absent). -/
def tokenStep (env : EmbedEnv) (res : Vec) (w : Str) : Except String Vec :=
  match env.wv w with
  | none => .ok res
  | some v =>
    match env.idfTok w with
    | none => .error "KeyError: idf"
    | some c => .ok (vadd res (smul c v))

/-- The final normalization step of `phrase2vec`: divide by the norm when it
is positive, otherwise leave the vector unchanged. -/
def normalizeV (env : EmbedEnv) (res : Vec) : Vec :=
  let norm := env.sqrtQ (sumSq res)
  if 0 < norm then res.map (· / norm) else res

/-- The compute path of `phrase2vec` (cache miss). -/
def phrase2vecRaw (env : EmbedEnv) (phrase : Str) : Except String Vec := do
  let res ← (env.tokenize phrase).foldlM (tokenStep env) (zerosV env.dim)
  pure (normalizeV env res)

/-- The phrase-to-vector cache `phrase2vec_cache`, keyed by the exact phrase. -/
abbrev P2VCache := List (Str × Vec)

/-- Model of `SimpleOpine.phrase2vec`: cache hit returns the stored vector,
otherwise the computed vector is stored and returned. -/
def phrase2vec (env : EmbedEnv) (cache : P2VCache) (phrase : Str) :
    Except String (Vec × P2VCache) :=
  match lookupA cache phrase with
  | some v => .ok (v, cache)
  | none => do
    let v ← phrase2vecRaw env phrase
    pure (v, (phrase, v) :: cache)

/-- The IDF-weighted sum over the tokens that have both a word vector and an
IDF weight; this is what the accumulation loop computes when no lookup fails. -/
def wsumOk (env : EmbedEnv) (phrase : Str) : Vec :=
  (env.tokenize phrase).foldl
    (fun res w =>
      match env.wv w, env.idfTok w with
      | some v, some c => vadd res (smul c v)
      | _, _ => res)
    (zerosV env.dim)

/-- Model of `SimpleOpine.cosine` (lines 415-429): zero when either norm is
not positive, the normalized dot product otherwise. -/
def cosineQ (sq : ℚ → ℚ) (v1 v2 : Vec) : ℚ :=
  let norm1 := sq (sumSq v1)
  let norm2 := sq (sumSq v2)
  if 0 < norm1 ∧ 0 < norm2 then dotQ v1 v2 / norm1 / norm2 else 0

/-! ### Markers and `SimpleOpine.get_features_summary` (lines 556-580)

The Python function receives the stored marker list of an entity and sorts
it IN PLACE (`summary.sort(...)`) before extracting features; the model
returns the feature list together with the list as the caller's store now
sees it. -/

structure Marker where
  center : Vec
  sum_senti : ℚ
  size : ℚ
deriving DecidableEq

/-- The sort key `x['sum_senti'] / (x['size'] + 1)` used on markers, called
mean sentiment in the specification. -/
def meanSenti (m : Marker) : ℚ := m.sum_senti / (m.size + 1)

/-- The five per-marker features of `get_features_summary`. -/
def markerFeats (sq : ℚ → ℚ) (qvec : Vec) (m : Marker) : List ℚ :=
  let similarity := cosineQ sq m.center qvec
  [m.sum_senti, m.size, meanSenti m, similarity, meanSenti m * similarity]

/-- Model of `SimpleOpine.get_features_summary` with its default
`num_markers=10`: sort the stored marker list in place by mean sentiment
ascending, emit five features per marker (for every marker, however many),
then pad with five zeros per missing marker up to ten.  The second component
is the marker list after the in-place sort. -/
def get_features_summary (p2v : Str → Vec) (sq : ℚ → ℚ) (summary : List Marker)
    (qterm : Str) : List ℚ × List Marker :=
  let qvec := p2v qterm
  let sorted := sortByKey meanSenti summary
  let X := sorted.flatMap (markerFeats sq qvec) ++
    List.replicate (5 * (10 - summary.length)) 0
  (X, sorted)

/-! ### Co-occurrence Fallback Interpreter (`CooccurInterpreter`, lines 20-175)

A review stores the id, the tokenized text (the gensim tokenizer applied to
the lowercased text at build time), the VADER compound sentiment computed at
build time, and the extracted (predicate, entity, attribute) triples.  The
BM25 relevance scores and the base-2 logarithm are external collaborators
kept as fields; `bm25` gives the relevance of a query term for each review
id (the alignment of `get_scores` output with `review_ids`).  Review ids are
the keys of the `reviews` dictionary, hence pairwise distinct. -/

structure Extraction where
  predicate : Str
  entity : Str
  attr : Str
deriving DecidableEq

structure Review where
  rid : Str
  tokens : List Str
  sentiment : ℚ
  extractions : List Extraction
deriving DecidableEq

structure Cooc where
  reviews : List Review
  bm25 : Str → Str → ℚ
  tokenize : Str → List Str
  log2Q : ℚ → ℚ

/-- The token position index of one review (`position_index[rid]`): all
positions at which a token occurs in the review text. -/
def posIdx (r : Review) (tok : Str) : List Nat :=
  r.tokens.enum.filterMap fun p => if p.2 = tok then some p.1 else none

/-- Model of `CooccurInterpreter.get_dist` (lines 77-106): the minimal
absolute token-position gap between any token of the two phrases inside one
review, `-1` when either phrase has no token in the review. -/
def get_dist (c : Cooc) (r : Review) (phrase1 phrase2 : Str) : Int :=
  let positions1 := (c.tokenize (toLow phrase1)).foldl (fun acc t => acc ++ posIdx r t) []
  let positions2 := (c.tokenize (toLow phrase2)).foldl (fun acc t => acc ++ posIdx r t) []
  positions1.foldl
    (fun res p1 =>
      positions2.foldl
        (fun res p2 =>
          if res < 0 ∨ ((p1 : Int) - (p2 : Int)).natAbs < res then
            (((p1 : Int) - (p2 : Int)).natAbs : Int)
          else res)
        res)
    (-1)

/-- The signed relevance score of a review for a query term (`score_mp`):
BM25 relevance times sentiment when the relevance is positive, else zero. -/
def score_mp (c : Cooc) (qterm : Str) (r : Review) : ℚ :=
  if 0 < c.bm25 qterm r.rid then c.bm25 qterm r.rid * r.sentiment else 0

/-- The reviews the vote loop retains: the top ten by descending signed
score (the stable Python sort on `-score_mp`), those with non-positive
score then skipped by the `continue`. -/
def retainedReviews (c : Cooc) (qterm : Str) : List Review :=
  ((sortByKey (fun r => -(score_mp c qterm r)) c.reviews).take 10).filter
    fun r => 0 < score_mp c qterm r

/-- One extraction of the per-review minimum-distance loop: a span with a
non-negative distance strictly improving the current minimum becomes the
new closest span. -/
def distStep (c : Cooc) (r : Review) (qterm : Str) (acc : Int × Str × Option Str)
    (ext : Extraction) : Int × Str × Option Str :=
  let phrase := ext.predicate ++ [' '] ++ ext.entity
  let dist := get_dist c r phrase qterm
  if 0 ≤ dist ∧ (acc.1 < 0 ∨ dist < acc.1) then (dist, phrase, some ext.attr) else acc

/-- The vote of one retained review: the extraction whose span
`predicate + ' ' + entity` has the minimal non-negative distance to the
query term, `none` when no extraction co-occurs positionally. -/
def reviewVote (c : Cooc) (qterm : Str) (r : Review) : Option (Str × Str) :=
  let final := r.extractions.foldl (distStep c r qterm) (-1, [], none)
  final.2.2.map fun a => (a, final.2.1)

/-- One review of the vote-collection loop: a first vote for an attribute
appends a count of one and remembers the phrase, later votes bump the
count. -/
def voteStep (c : Cooc) (qterm : Str) (acc : List (Str × ℚ) × List (Str × Str))
    (r : Review) : List (Str × ℚ) × List (Str × Str) :=
  match reviewVote c qterm r with
  | none => acc
  | some (a, ph) =>
    match lookupA acc.1 a with
    | none => (acc.1 ++ [(a, 1)], acc.2 ++ [(a, ph)])
    | some n => (updFirst acc.1 a (n + 1), acc.2)

/-- The vote-count dictionary and the remembered representative phrases, in
insertion order. -/
def collectVotes (c : Cooc) (qterm : Str) : List (Str × ℚ) × List (Str × Str) :=
  (retainedReviews c qterm).foldl (voteStep c qterm) ([], [])

/-- Total number of extractions over the whole corpus (the `total` counter
of `build_index`). -/
def attrTotal (c : Cooc) : ℚ :=
  ((c.reviews.foldl (fun acc r => acc + r.extractions.length) 0 : Nat) : ℚ)

/-- Number of extractions carrying a given attribute (the pre-log `idf`
counter of `build_index`). -/
def attrCount (c : Cooc) (a : Str) : ℚ :=
  (((c.reviews.flatMap Review.extractions).countP fun e => e.attr = a : Nat) : ℚ)

/-- The attribute IDF of the co-occurrence interpreter:
`log2(total / count)`. -/
def idfA (c : Cooc) (a : Str) : ℚ := c.log2Q (attrTotal c / attrCount c a)

/-- One comparison of the final arg-max loop: a strictly larger weighted
vote count replaces the current best. -/
def bvStep (acc : ℚ × Option Str) (p : Str × ℚ) : ℚ × Option Str :=
  if acc.1 < p.2 then (p.2, some p.1) else acc

/-- The final arg-max loop of `interpret` (lines 165-171), starting from a
best score of zero and no attribute. -/
def bestVote (l : List (Str × ℚ)) : ℚ × Option Str :=
  l.foldl bvStep (0, none)

/-- The compute path of `CooccurInterpreter.interpret` (cache miss):
retain the top reviews, collect IDF-weighted votes, and return the best
attribute with its remembered phrase, or `(none, none)`. -/
def computeCooc (c : Cooc) (qterm : Str) : Option Str × Option Str :=
  let votes := (collectVotes c qterm).1.map fun p => (p.1, p.2 * idfA c p.1)
  match (bestVote votes).2 with
  | none => (none, none)
  | some a => (some a, lookupA (collectVotes c qterm).2 a)

/-- The interpretation cache of the co-occurrence interpreter. -/
abbrev CoocCache := List (Str × (Option Str × Option Str))

/-- Model of `CooccurInterpreter.interpret` (lines 109-175): return the
cached result on a hit; otherwise compute.  The source returns the computed
result WITHOUT storing it in `interpret_cache`, which the model preserves:
the returned cache is the input cache in both branches. -/
def coocInterpret (c : Cooc) (cache : CoocCache) (qterm : Str) :
    (Option Str × Option Str) × CoocCache :=
  match lookupA cache qterm with
  | some r => (r, cache)
  | none => (computeCooc c qterm, cache)

/-! ### Interpretation Pipeline (`SimpleOpine.interpret`, lines 582-613)

The KDTree query is kept at its boundary as the index of the nearest
catalogued vector; `allPhrases` is the `(attribute, phrase)` list the index
was built over, and `p2v` gives the (successful) `phrase2vec` results; the
failure behaviour of `phrase2vec` itself is treated with `phrase2vec`
above.  The co-occurrence interpreter enters as an explicit argument so
that its (non-)invocation is observable. -/

structure InterpEnv where
  p2v : Str → Vec
  tokenize : Str → List Str
  sqrtQ : ℚ → ℚ
  allPhrases : List (Str × Str)
  kdQuery : Vec → Nat

/-- The primary nearest-neighbour result: `all_phrases[kd_tree.query(...)]`
(the KDTree returns an index into the list it was built over). -/
def primaryRes (env : InterpEnv) (qterm : Str) : Str × Str :=
  env.allPhrases.getD (env.kdQuery (env.p2v qterm)) ([], [])

/-- The cosine similarity between the term vector and the matched phrase
vector, as `interpret` computes it. -/
def nnSim (env : InterpEnv) (qterm : Str) : ℚ :=
  cosineQ env.sqrtQ (env.p2v (primaryRes env qterm).2) (env.p2v qterm)

/-- The interpretation cache of `SimpleOpine` (`interpret_cache`). -/
abbrev InterpCache := List (Str × (Str × Str))

/-- Model of `SimpleOpine.interpret`: cache hit short-circuits; otherwise
the nearest-neighbour result stands unless the similarity is below the
fallback threshold or the term is a single token, in which case the
co-occurrence interpreter is consulted and supersedes the primary result
exactly when it returns a non-null attribute.  The result is stored in the
cache. -/
def interpretNN (env : InterpEnv) (cooc : Str → Option (Str × Str))
    (cache : InterpCache) (qterm : Str) (fallbackThreshold : ℚ) :
    (Str × Str) × InterpCache :=
  match lookupA cache qterm with
  | some r => (r, cache)
  | none =>
    let queryLen := (env.tokenize qterm).length
    let res := primaryRes env qterm
    let similarity := nnSim env qterm
    let res2 :=
      if similarity < fallbackThreshold ∨ queryLen = 1 then
        match cooc qterm with
        | some cr => cr
        | none => res
      else res
    (res2, (qterm, res2) :: cache)

/-! ### Ranking engine data model (`SimpleOpine`, lines 179-757)

Entities are the loaded JSON records: an optional `summaries` mapping, an
optional `histogram` mapping, and the typed objective-attribute values
added at load time (booleans and categories as strings — booleans stored
lowercased — numerics as floats).  The Python entity is one dictionary that
also holds the keys `histogram` and `summaries` themselves; predicates over
attributes literally named `histogram` or `summaries` are outside the
modelled claims and the structure below keeps the three parts apart. -/

/-- Shorthand turning a Lean string literal into the character-list model. -/
def S (s : String) : Str := s.data

inductive ObjVal
  | str (s : Str)
  | num (q : ℚ)
deriving DecidableEq

structure ObjAttrInfo where
  type : Str
  values : List Str
  lo : ℚ
  hi : ℚ
deriving DecidableEq

/-- A structured predicate `(atype, attr, op, oprand)` as decomposed by
`opine` (lines 684-688). -/
structure Pred where
  atype : Str
  attr : Str
  op : Str
  oprand : Str
deriving DecidableEq

structure Entity where
  summaries : Option (List (Str × List Marker))
  histogram : Option (List (Str × List (Str × ℚ)))
  objs : List (Str × ObjVal)
deriving DecidableEq

/-- A membership-cache key: the Python dictionary holds 3-tuples
`(bid, attr, qterm)` when the catalog has no objective attributes and
4-tuples `(bid, attr, qterm, obj_pred)` otherwise; the fourth component is
`none` for the 3-tuple shape and `some obj_pred` for the 4-tuple shape. -/
abbrev MKey := Str × Str × Str × Option (Option Pred)

/-- The mutable state threaded through one `opine` call: the per-entity
scores, the membership cache, and the entity store (mutable because
`get_features_summary` sorts a stored marker list in place). -/
structure RunSt where
  scores : List (Str × ℚ)
  mcache : List (MKey × ℚ)
  ents : List (Str × Entity)
deriving DecidableEq

/-- The engine environment: loaded data plus the external collaborators
(the trained logistic predictors as positive-class-probability functions,
the tokenizer-independent `interp` giving the interpreted attribute of a
query term, square root, exponential, float parsing). -/
structure OpineEnv where
  dim : Nat
  ents : List (Str × Entity)
  objAttrs : List (Str × ObjAttrInfo)
  cateToId : List Str
  p2v : Str → Vec
  sqrtQ : ℚ → ℚ
  expQ : ℚ → ℚ
  parseFloat : Str → Option ℚ
  interp : Str → Str
  phraseSent : Str → Option ℚ
  markerPredict : List ℚ → ℚ
  phrasePredict : List ℚ → ℚ

/-- The near-zero fallback score `1e-6` for missing subjective data. -/
def eps6 : ℚ := 1 / 1000000

/-- The boolean-policy penalty factor `1e-15`. -/
def eps15 : ℚ := 1 / 1000000000000000

/-- Model of `scores = {bid : 1.0 for bid in bids}`. -/
def initScores (bids : List Str) : List (Str × ℚ) := bids.map fun b => (b, (1 : ℚ))

/-- Reading `scores[bid]`; the default is never reached on the keys `opine`
uses, since the dictionary is initialized over exactly the ranked ids. -/
def scoreGet (l : List (Str × ℚ)) (b : Str) : ℚ := (lookupA l b).getD 0

/-- Writing `scores[bid] = v`. -/
def setScore (l : List (Str × ℚ)) (b : Str) (v : ℚ) : List (Str × ℚ) := updFirst l b v

/-- Reading `self.entities[bid]`, a KeyError when the id is unknown. -/
def getEnt (ents : List (Str × Entity)) (bid : Str) : Except String Entity :=
  match lookupA ents bid with
  | some e => .ok e
  | none => .error "KeyError: entities"

/-- Replacing the stored marker list of one (entity, attribute) pair, the
effect of the in-place `summary.sort` seen through the store (the entity
dictionary holds one slot per id, so only the first entry is touched). -/
def setSumm : List (Str × Entity) → Str → Str → List Marker → List (Str × Entity)
  | [], _, _, _ => []
  | (k, e) :: rest, bid, attrName, newl =>
    if k = bid then
      (k, { e with summaries := e.summaries.map fun sl => updFirst sl attrName newl }) :: rest
    else (k, e) :: setSumm rest bid attrName newl

/-- Adding a rational at one position of a list (the `cate_list` updates). -/
def bump : List ℚ → Nat → ℚ → List ℚ
  | [], _, _ => []
  | x :: xs, 0, d => (x + d) :: xs
  | x :: xs, n + 1, d => x :: bump xs n d

/-- Python `float(value)` on an entity value: numerics pass through,
strings go through float parsing. -/
def objToFloat (pf : Str → Option ℚ) : ObjVal → Except String ℚ
  | .num q => .ok q
  | .str s =>
    match pf s with
    | some q => .ok q
    | none => .error "ValueError: float"

/-- Python `float(oprand)` on the predicate operand string. -/
def parseF (pf : Str → Option ℚ) (s : Str) : Except String ℚ :=
  match pf s with
  | some q => .ok q
  | none => .error "ValueError: float"

/-- The categorical comparison `val != oprand` of the combiner branches:
Python inequality between a non-string value and a string is true. -/
def cateMismatch : ObjVal → Str → Bool
  | .str s, o => if s = o then false else true
  | .num _, _ => true

/-- Model of `SimpleOpine.get_features_obj` (lines 453-501): the boolean
disagreement flag, the signed categorical one-hot block over all known
categorical values, and the numeric `[abs_diff, rel_diff]` pair.  Calling
`.lower()` on a non-string value and the unguarded `cate_to_id` and
`obj_attrs` lookups are the error paths. -/
def get_features_obj (env : OpineEnv) (atype : Str) (value : ObjVal)
    (attrName _op oprand : Str) : Except String (List ℚ) := do
  let boolFeat ←
    if atype = S "bool" then
      match value with
      | .str s => pure (if toLow oprand ≠ toLow s then [(1 : ℚ)] else [0])
      | .num _ => throw "AttributeError: lower"
    else pure [(0 : ℚ)]
  let cateFeats ←
    if atype = S "cate" then
      match value with
      | .num _ => throw "KeyError: cate_to_id"
      | .str vs =>
        match env.cateToId.findIdx? (fun x => x = vs),
            env.cateToId.findIdx? (fun x => x = oprand) with
        | some iv, some io =>
          pure (bump (bump (List.replicate env.cateToId.length (0 : ℚ)) iv 1) io (-1))
        | _, _ => throw "KeyError: cate_to_id"
    else pure (List.replicate env.cateToId.length (0 : ℚ))
  let numFeats ←
    if atype = S "num" then do
      let v ← objToFloat env.parseFloat value
      let o ← parseF env.parseFloat oprand
      let ad := if _op = S "<" then v - o else o - v
      match lookupA env.objAttrs attrName with
      | none => throw "KeyError: obj_attrs"
      | some info => pure [ad, ad / (info.hi - info.lo + 1)]
    else pure [(0 : ℚ), 0]
  pure (boolFeat ++ cateFeats ++ numFeats)

/-- The accumulators of the `get_features_phrases` loop. -/
structure PhrAcc where
  simCount : ℚ
  count2 : ℚ
  sentSum : ℚ
  sentSum2 : ℚ
  posCount : ℚ
  negCount : ℚ
  posMatch : ℚ
  negMatch : ℚ
  sumPhrases : Vec

/-- One iteration of the `get_features_phrases` loop over a histogram item;
the unguarded `phrase_sentiments[phrase]` lookup is the error path. -/
def phrStep (env : OpineEnv) (qvec : Vec) (acc : PhrAcc) (item : Str × ℚ) :
    Except String PhrAcc := do
  let pvec := env.p2v item.1
  let cnt := item.2
  let acc := { acc with sumPhrases := vadd acc.sumPhrases (smul cnt pvec) }
  let senti ←
    match env.phraseSent item.1 with
    | some s => pure s
    | none => throw "KeyError: phrase_sentiments"
  let acc :=
    if 4 / 5 < cosineQ env.sqrtQ qvec pvec then
      { acc with
        simCount := acc.simCount + cnt
        sentSum := acc.sentSum + cnt * senti
        posMatch := if 0 ≤ senti then acc.posMatch + cnt else acc.posMatch
        negMatch := if 0 ≤ senti then acc.negMatch else acc.negMatch + cnt }
    else acc
  pure { acc with
    sentSum2 := acc.sentSum2 + cnt * senti
    count2 := acc.count2 + cnt
    posCount := if 0 ≤ senti then acc.posCount + cnt else acc.posCount
    negCount := if 0 ≤ senti then acc.negCount else acc.negCount + cnt }

/-- Model of `SimpleOpine.get_features_phrases` (lines 504-554). -/
def get_features_phrases (env : OpineEnv) (hist : List (Str × ℚ)) (qterm : Str) :
    Except String (List ℚ) := do
  let qvec := env.p2v qterm
  let a ← hist.foldlM (phrStep env qvec) ⟨1, 1, 0, 0, 0, 0, 0, 0, zerosV env.dim⟩
  pure [a.simCount, a.sentSum / a.simCount, a.sentSum2 / a.count2, a.posCount,
    a.negCount, a.posMatch, a.negMatch, cosineQ env.sqrtQ qvec a.sumPhrases]

/-! ### The membership scorer (`membership` inside `opine`, lines 629-675) -/

/-- The tail of the objective arm of `membership`, after the predicate
features arguments `(atype, value, attr, op, oprand)` have been resolved
(all empty when the predicate is absent or the entity lacks its
attribute). -/
def membershipObjTail (env : OpineEnv) (mode : Str) (st : RunSt) (bid attrName qterm : Str)
    (objPred : Option Pred) (ent : Entity) (atype : Str) (value : ObjVal)
    (oattr opr oprand : Str) : Except String (ℚ × RunSt) := do
  let objFeats ← get_features_obj env atype value oattr opr oprand
  if mode = S "marker" then
    match ent.summaries.bind fun sl => lookupA sl attrName with
    | some summary =>
      let fs := get_features_summary env.p2v env.sqrtQ summary qterm
      let score := env.markerPredict (objFeats ++ fs.1)
      pure (score,
        { st with
          ents := setSumm st.ents bid attrName fs.2
          mcache := ((bid, attrName, qterm, some objPred), score) :: st.mcache })
    | none =>
      pure (eps6,
        { st with mcache := ((bid, attrName, qterm, some objPred), eps6) :: st.mcache })
  else
    match ent.histogram.bind fun hl => lookupA hl attrName with
    | some hist => do
      let feats ← get_features_phrases env hist qterm
      let score := env.phrasePredict (objFeats ++ feats)
      pure (score,
        { st with mcache := ((bid, attrName, qterm, some objPred), score) :: st.mcache })
    | none =>
      pure (eps6,
        { st with mcache := ((bid, attrName, qterm, some objPred), eps6) :: st.mcache })

/-- Model of the inner `membership(bid, attr_name, qterm, obj_pred)`.  The
two arms follow the catalog-shape switch `len(self.obj_attrs) == 0`: cache
keys are 3-tuples without objective attributes and 4-tuples with them; in
the objective arm the predicate features are computed (from an emptied
predicate when it is absent or the entity lacks the attribute) and
prepended to the subjective features.  Missing subjective data yields the
fixed `1e-6`.  The marker mode stores the in-place-sorted marker list back
into the entity store. -/
def membership (env : OpineEnv) (mode : Str) (st : RunSt) (bid attrName qterm : Str)
    (objPred : Option Pred) : Except String (ℚ × RunSt) :=
  if env.objAttrs.isEmpty then
    match lookupA st.mcache (bid, attrName, qterm, (none : Option (Option Pred))) with
    | some v => .ok (v, st)
    | none => do
      let ent ← getEnt st.ents bid
      if mode = S "marker" then
        match ent.summaries.bind fun sl => lookupA sl attrName with
        | some summary =>
          let fs := get_features_summary env.p2v env.sqrtQ summary qterm
          let score := env.markerPredict fs.1
          pure (score,
            { st with
              ents := setSumm st.ents bid attrName fs.2
              mcache := ((bid, attrName, qterm, none), score) :: st.mcache })
        | none =>
          pure (eps6, { st with mcache := ((bid, attrName, qterm, none), eps6) :: st.mcache })
      else
        match ent.histogram.bind fun hl => lookupA hl attrName with
        | some hist => do
          let feats ← get_features_phrases env hist qterm
          let score := env.phrasePredict feats
          pure (score, { st with mcache := ((bid, attrName, qterm, none), score) :: st.mcache })
        | none =>
          pure (eps6, { st with mcache := ((bid, attrName, qterm, none), eps6) :: st.mcache })
  else
    match lookupA st.mcache (bid, attrName, qterm, some objPred) with
    | some v => .ok (v, st)
    | none => do
      let ent ← getEnt st.ents bid
      match objPred with
      | none =>
        membershipObjTail env mode st bid attrName qterm objPred ent (S "")
          (ObjVal.str (S "")) (S "") (S "") (S "")
      | some p =>
        match lookupA ent.objs p.attr with
        | none =>
          membershipObjTail env mode st bid attrName qterm objPred ent (S "")
            (ObjVal.str (S "")) (S "") (S "") (S "")
        | some v =>
          membershipObjTail env mode st bid attrName qterm objPred ent p.atype v
            p.attr p.op p.oprand

/-! ### Query decomposition and the ranking loops (`opine`, lines 615-757) -/

/-- Parsing one structured term: `attr, op, oprand = qterm.split(' ')` (a
ValueError unless exactly three fields) then `atype, attr = attr.split(':')`
(a ValueError unless the first field splits at the colon in exactly two);
the type tag is not validated here. -/
def splitPred (qterm : Str) : Except String Pred :=
  match splitCh ' ' qterm with
  | [a, opr, od] =>
    match splitCh ':' a with
    | [t, attrName] => .ok ⟨t, attrName, opr, od⟩
    | _ => .error "ValueError: colon split"
  | _ => .error "ValueError: unpack"

/-- One term of the query-decomposition loop: a term containing a colon is
parsed as a structured predicate, the rest are subjective terms. -/
def decStep (acc : List Str × List Pred) (qterm : Str) :
    Except String (List Str × List Pred) :=
  if qterm.contains ':' then do
    let p ← splitPred qterm
    pure (acc.1, acc.2 ++ [p])
  else pure (acc.1 ++ [qterm], acc.2)

/-- The query-decomposition loop of `opine` (lines 682-690): order is
preserved and a parse error aborts the whole call. -/
def decompose (query : List Str) : Except String (List Str × List Pred) :=
  query.foldlM decStep ([], [])

/-- One entity update of the subjective-scoring loop:
`scores[bid] *= membership(bid, attr_name, qterm)`. -/
def subjBidStep (env : OpineEnv) (mode attrName qterm : Str) (st : RunSt) (bid : Str) :
    Except String RunSt := do
  let (m, st1) ← membership env mode st bid attrName qterm none
  pure { st1 with scores := setScore st1.scores bid (scoreGet st1.scores bid * m) }

/-- One subjective term of the scoring loop: lowercase, interpret, then
score every candidate. -/
def subjStep (env : OpineEnv) (mode : Str) (bids : List Str) (st : RunSt) (qterm0 : Str) :
    Except String RunSt :=
  let qterm := toLow qterm0
  let attrName := env.interp qterm
  bids.foldlM (subjBidStep env mode attrName qterm) st

/-- One entity update of the sensitive objective policy. -/
def sensBidStep (env : OpineEnv) (mode attrName qterm : Str) (p : Pred) (st : RunSt)
    (bid : Str) : Except String RunSt := do
  let (m, st1) ← membership env mode st bid attrName qterm (some p)
  pure { st1 with scores := setScore st1.scores bid (scoreGet st1.scores bid * m) }

/-- The sensitive policy for one predicate: pair it with every subjective
term and multiply every candidate by the predicate-conditioned membership. -/
def sensStep (env : OpineEnv) (mode : Str) (bids subs : List Str) (st : RunSt) (p : Pred) :
    Except String RunSt :=
  subs.foldlM
    (fun st qterm0 =>
      let qterm := toLow qterm0
      let attrName := env.interp qterm
      bids.foldlM (sensBidStep env mode attrName qterm p) st)
    st

/-- The logistic of the agnostic numeric penalty. -/
def sigmoidQ (ex : ℚ → ℚ) (x : ℚ) : ℚ := 1 / (1 + ex (-x))

/-- One (predicate, entity) update of the agnostic policy (lines 717-735):
entities lacking the attribute are skipped; boolean mismatch (lowercased)
multiplies by 0.5, categorical mismatch (exact) by 0.3, numeric predicates
by a sigmoid of the range-normalized signed difference. -/
def agnStep (env : OpineEnv) (ents : List (Str × Entity)) (p : Pred)
    (scores : List (Str × ℚ)) (bid : Str) : Except String (List (Str × ℚ)) := do
  let ent ← getEnt ents bid
  match lookupA ent.objs p.attr with
  | none => pure scores
  | some val =>
    if p.atype = S "bool" then
      match val with
      | .num _ => .error "AttributeError: lower"
      | .str s =>
        pure
          (if toLow s ≠ toLow p.oprand then
            setScore scores bid (scoreGet scores bid * (1 / 2))
          else scores)
    else if p.atype = S "cate" then
      pure
        (if cateMismatch val p.oprand then
          setScore scores bid (scoreGet scores bid * (3 / 10))
        else scores)
    else do
      match lookupA env.objAttrs p.attr with
      | none => .error "KeyError: obj_attrs"
      | some info => do
        let ov ← parseF env.parseFloat p.oprand
        let vv ← objToFloat env.parseFloat val
        let diff := (ov - vv) / (info.hi - info.lo + 1)
        if p.op = S "<" then
          pure (setScore scores bid (scoreGet scores bid * sigmoidQ env.expQ diff))
        else
          pure (setScore scores bid (scoreGet scores bid * sigmoidQ env.expQ (-diff)))

/-- One (predicate, entity) update of the boolean policy (lines 736-755):
entities lacking the attribute are skipped; any violated predicate
multiplies the score by 1e-15, a satisfied one leaves it unchanged. -/
def boolStep (env : OpineEnv) (ents : List (Str × Entity)) (p : Pred)
    (scores : List (Str × ℚ)) (bid : Str) : Except String (List (Str × ℚ)) := do
  let ent ← getEnt ents bid
  match lookupA ent.objs p.attr with
  | none => pure scores
  | some val =>
    if p.atype = S "bool" then
      match val with
      | .num _ => .error "AttributeError: lower"
      | .str s =>
        pure
          (if toLow s ≠ toLow p.oprand then
            setScore scores bid (scoreGet scores bid * eps15)
          else scores)
    else if p.atype = S "cate" then
      pure
        (if cateMismatch val p.oprand then
          setScore scores bid (scoreGet scores bid * eps15)
        else scores)
    else do
      let vv ← objToFloat env.parseFloat val
      let ov ← parseF env.parseFloat p.oprand
      if p.op = S "<" then
        pure
          (if ov ≤ vv then setScore scores bid (scoreGet scores bid * eps15) else scores)
      else
        pure
          (if vv ≤ ov then setScore scores bid (scoreGet scores bid * eps15) else scores)

/-- The objective-predicate phase of `opine`: the `elif` chain over the
three policies (an unknown policy string silently skips the objective
predicates, as the Python `elif` chain with no final `else` does). -/
def policyPhase (env : OpineEnv) (mode ctx : Str) (bids subs : List Str)
    (preds : List Pred) (st1 : RunSt) : Except String RunSt :=
  if ctx = S "sensitive" then preds.foldlM (sensStep env mode bids subs) st1
  else if ctx = S "agnostic" then do
    let sc ← preds.foldlM (fun sc p => bids.foldlM (agnStep env st1.ents p) sc) st1.scores
    pure { st1 with scores := sc }
  else if ctx = S "boolean" then do
    let sc ← preds.foldlM (fun sc p => bids.foldlM (boolStep env st1.ents p) sc) st1.scores
    pure { st1 with scores := sc }
  else pure st1

/-- Model of `SimpleOpine.opine` returning the final ranking and the final
mutable state (scores, membership cache, entity store).  The membership
cache persists across calls in the source, so its content at entry is the
`mc0` argument; the entity store at entry is `env.ents`. -/
def opineRun (env : OpineEnv) (mode ctx : Str) (query : List Str)
    (bids0 : Option (List Str)) (mc0 : List (MKey × ℚ)) :
    Except String (List Str × RunSt) := do
  let (subs, preds) ← decompose query
  let bids := match bids0 with | some l => l | none => env.ents.map (·.1)
  let st1 ← subs.foldlM (subjStep env mode bids) ⟨initScores bids, mc0, env.ents⟩
  let st2 ← policyPhase env mode ctx bids subs preds st1
  pure (sortByKey (fun b => -(scoreGet st2.scores b)) bids, st2)

/-- The ranking `opine` returns: candidates sorted by descending score. -/
def opine (env : OpineEnv) (mode ctx : Str) (query : List Str)
    (bids0 : Option (List Str)) (mc0 : List (MKey × ℚ)) : Except String (List Str) :=
  (opineRun env mode ctx query bids0 mc0).map (·.1)

/-- Environment for the C2 witness: one token with both a word vector and
an IDF weight. -/
def c2wEnv : EmbedEnv :=
  ⟨1, fun w => if w = S "a" then some [2] else none,
    fun w => if w = S "a" then some 3 else none, fun _ => [S "a"], fun x => x⟩

/-- Entities for the C10 witness: one entity whose categorical value and
boolean value differ from the operands only in case. -/
def c10Ents : List (Str × Entity) :=
  [(S "b", ⟨none, none, [(S "city", ObjVal.str (S "Tokyo"))]⟩)]

/-- An arbitrary concrete environment for the C10 witness; the combiner
branches under test read none of its fields. -/
def c10Env : OpineEnv :=
  ⟨0, c10Ents, [], [], fun _ => [], fun _ => 0, fun _ => 0, fun _ => none,
    fun _ => S "", fun _ => none, fun _ => 0, fun _ => 0⟩

/-- Environment for the C8 witness: the term tokenizes to one token, which
triggers the fallback, and the fallback returns a non-null attribute that
supersedes the primary result. -/
def c8Env : InterpEnv :=
  ⟨fun _ => [1], fun _ => [S "tok"], fun x => x, [(S "attr", S "ph")], fun _ => 0⟩

/-! ### Claim C4 -/

/-- The shape a colon-containing term must have to parse: exactly three
single-space-separated fields, the first containing exactly one colon.  The
type tag is NOT part of the shape: the decomposition never checks it. -/
def goodShape (qterm : Str) : Bool :=
  match splitCh ' ' qterm with
  | [a, _, _] =>
    match splitCh ':' a with
    | [_, _] => true
    | _ => false
  | _ => false

/-- Final state of the C9 witness run. -/
def c9St : RunSt := ⟨[(S "b", 1)], [], c10Ents⟩

/-! ### Claim C3 -/

/-- The relation between summary maps before and after a run: same
attribute keys in the same order, and per attribute the stored marker list
is a permutation of the original. -/
def SummsRel : Option (List (Str × List Marker)) → Option (List (Str × List Marker)) → Prop
  | none, none => True
  | some s, some t => List.Forall₂ (fun p q => p.1 = q.1 ∧ p.2.Perm q.2) s t
  | _, _ => False

/-- The relation between an entity before and after a run: histogram and
objective values identical, summaries related by `SummsRel`. -/
def EntityRel (e f : Entity) : Prop :=
  e.histogram = f.histogram ∧ e.objs = f.objs ∧ SummsRel e.summaries f.summaries

/-- The relation between the entity store before and after a run. -/
def EntsRel (es fs : List (Str × Entity)) : Prop :=
  List.Forall₂ (fun p q => p.1 = q.1 ∧ EntityRel p.2 q.2) es fs

/-- Markers out of mean-sentiment order for the C3 counterexample. -/
def c3m1 : Marker := ⟨[], 1, 0⟩

def c3m2 : Marker := ⟨[], 0, 0⟩

def c3Ents : List (Str × Entity) :=
  [(S "b", ⟨some [(S "a", [c3m1, c3m2])], none, []⟩)]

def c3Env : OpineEnv :=
  ⟨0, c3Ents, [], [], fun _ => [], fun _ => 0, fun _ => 0, fun _ => none,
    fun _ => S "", fun _ => none, fun _ => 0, fun _ => 0⟩

def c3St : RunSt := ⟨[], [], c3Ents⟩

/-! ### Claim C1 -/

/-- The multiplicative factor one (predicate, entity) step of the boolean
policy applies: 1 when the entity lacks the attribute or satisfies the
predicate, 1e-15 when it violates it (with the same error paths as the
step itself). -/
def boolFactorE (env : OpineEnv) (ents : List (Str × Entity)) (p : Pred) (bid : Str) :
    Except String ℚ := do
  let ent ← getEnt ents bid
  match lookupA ent.objs p.attr with
  | none => pure 1
  | some val =>
    if p.atype = S "bool" then
      match val with
      | .num _ => .error "AttributeError: lower"
      | .str s => pure (if toLow s ≠ toLow p.oprand then eps15 else 1)
    else if p.atype = S "cate" then
      pure (if cateMismatch val p.oprand then eps15 else 1)
    else do
      let vv ← objToFloat env.parseFloat val
      let ov ← parseF env.parseFloat p.oprand
      if p.op = S "<" then pure (if ov ≤ vv then eps15 else 1)
      else pure (if vv ≤ ov then eps15 else 1)

/-- C1 counterexample data: entity A satisfies the boolean predicate and
lacks the interpreted subjective attribute (three fallback scores of 1e-6);
entity B violates the predicate and carries a summary scored 1/2 per term
by the trained model. -/
def c1A : Entity := ⟨some [], none, [(S "wifi", ObjVal.str (S "true"))]⟩

def c1B : Entity :=
  ⟨some [(S "a0", [⟨[1], 0, 0⟩])], none, [(S "wifi", ObjVal.str (S "false"))]⟩

def c1Ents : List (Str × Entity) := [(S "A", c1A), (S "B", c1B)]

def c1Env : OpineEnv :=
  ⟨1, c1Ents, [(S "wifi", ⟨S "bool", [], 0, 0⟩)], [], fun _ => [1], fun x => x,
    fun _ => 0, fun _ => none, fun _ => S "a0", fun _ => none, fun _ => 1 / 2,
    fun _ => 0⟩

/-- Final state of the C1 witness run (objective-only query). -/
def c1wSt : RunSt := ⟨[(S "A", 1), (S "B", 1 / 1000000000000000)], [], c1Ents⟩

/-- The invariant of the vote-collection fold: every collected count is at
least one and its attribute occurs in some extraction; the vote keys are
distinct; votes and remembered phrases hold the same keys. -/
def voteInv (c : Cooc) (acc : List (Str × ℚ) × List (Str × Str)) : Prop :=
  (∀ p ∈ acc.1, (1 : ℚ) ≤ p.2 ∧ 0 < attrCount c p.1) ∧
  (acc.1.map Prod.fst).Nodup ∧
  acc.1.map Prod.fst = acc.2.map Prod.fst

/-- C7 counterexample corpus: one review, one extraction, hence a single
attribute appearing in every extraction; its IDF is log2(total/count) =
log2(1) = 0. -/
def c7Rev : Review :=
  ⟨S "r1", [S "good", S "food"], 1 / 2, [⟨S "good", S "food", S "food"⟩]⟩

def c7Cooc : Cooc := ⟨[c7Rev], fun _ _ => 1, splitCh ' ', fun _ => 0⟩

/-- C7 witness corpus: two attributes, each in one of two extractions, so
each has IDF log2(2) = 1 (positive). -/
def c7wRev : Review :=
  ⟨S "r1", [S "good", S "food"], 1 / 2,
    [⟨S "good", S "food", S "food"⟩, ⟨S "nice", S "svc", S "svc"⟩]⟩

def c7wCooc : Cooc := ⟨[c7wRev], fun _ _ => 1, splitCh ' ', fun _ => 1⟩

theorem insKey_perm {α : Type} (k : α → ℚ) (x : α) (l : List α) :
    (insKey k x l).Perm (x :: l) := by
  induction l with
  | nil => simp [insKey]
  | cons y ys ih =>
    simp only [insKey]
    by_cases h : k x ≤ k y
    · simp [h]
    · simp only [h, if_false]
      exact (ih.cons y).trans (List.Perm.swap x y ys)

theorem sortByKey_perm {α : Type} (k : α → ℚ) (l : List α) :
    (sortByKey k l).Perm l := by
  induction l with
  | nil => simp [sortByKey]
  | cons x xs ih =>
    exact (insKey_perm k x (sortByKey k xs)).trans (ih.cons x)

theorem insKey_sorted {α : Type} (k : α → ℚ) (x : α) (l : List α)
    (h : l.Sorted (fun a b => k a ≤ k b)) :
    (insKey k x l).Sorted (fun a b => k a ≤ k b) := by
  induction l with
  | nil => simp [insKey]
  | cons y ys ih =>
    simp only [insKey]
    by_cases hxy : k x ≤ k y
    · simp only [hxy, if_true]
      refine List.sorted_cons.mpr ⟨?_, h⟩
      intro b hb
      rcases List.mem_cons.mp hb with hb | hb
      · exact hb ▸ hxy
      · exact hxy.trans (List.rel_of_sorted_cons h b hb)
    · have hys := h.of_cons
      have hyx : k y ≤ k x := le_of_not_le hxy
      simp only [hxy, if_false]
      refine List.sorted_cons.mpr ⟨?_, ih hys⟩
      intro b hb
      have hmem := (insKey_perm k x ys).mem_iff.mp hb
      rcases List.mem_cons.mp hmem with hb | hb
      · exact hb ▸ hyx
      · exact List.rel_of_sorted_cons h b hb

theorem sortByKey_sorted {α : Type} (k : α → ℚ) (l : List α) :
    (sortByKey k l).Sorted (fun a b => k a ≤ k b) := by
  induction l with
  | nil => simp [sortByKey]
  | cons x xs ih => exact insKey_sorted k x _ ih

theorem insKey_filter_key_eq {α : Type} (k : α → ℚ) (x : α) (l : List α) (c : ℚ)
    (hsort : l.Sorted (fun a b => k a ≤ k b)) :
    (insKey k x l).filter (fun a => k a = c) =
      if k x = c then x :: l.filter (fun a => k a = c)
      else l.filter (fun a => k a = c) := by
  induction l with
  | nil => by_cases h : k x = c <;> simp [insKey, List.filter, h]
  | cons y ys ih =>
    simp only [insKey]
    by_cases hxy : k x ≤ k y
    · simp only [hxy, if_true]
      by_cases hx : k x = c <;> simp [List.filter, hx]
    · have hyx : k y < k x := lt_of_not_le hxy
      simp only [hxy, if_false]
      have ih2 := ih hsort.of_cons
      by_cases hx : k x = c
      · -- the skipped head has key strictly below k x = c, so it is not in the class
        have hyc : ¬ (k y = c) := by
          intro hy; rw [hy, hx] at hyx; exact lt_irrefl _ hyx
        simp [List.filter_cons, hyc, hx, ih2]
      · by_cases hy : k y = c <;> simp [List.filter_cons, hy, hx, ih2]

theorem sortByKey_filter_key_eq {α : Type} (k : α → ℚ) (l : List α) (c : ℚ) :
    (sortByKey k l).filter (fun a => k a = c) = l.filter (fun a => k a = c) := by
  induction l with
  | nil => simp [sortByKey]
  | cons x xs ih =>
    simp only [sortByKey]
    rw [insKey_filter_key_eq k x _ c (sortByKey_sorted k xs)]
    by_cases hx : k x = c <;> simp [List.filter_cons, hx, ih]

/-- In a list sorted ascending by key, an element with a strictly smaller key
occurs strictly before one with a larger key (first occurrences). -/
theorem sorted_indexOf_lt {α : Type} [BEq α] [LawfulBEq α] [DecidableEq α] (k : α → ℚ) (l : List α)
    (a b : α) (hs : l.Sorted (fun x y => k x ≤ k y)) (ha : a ∈ l) (hb : b ∈ l)
    (hk : k a < k b) : l.indexOf a < l.indexOf b := by
  induction l with
  | nil => cases ha
  | cons x xs ih =>
    by_cases hxa : x = a
    · have hab : a ≠ b := fun h => absurd (h ▸ hk) (lt_irrefl _)
      have hxb : x ≠ b := hxa ▸ hab
      have hbxs : b ∈ xs := by
        rcases List.mem_cons.mp hb with h | h
        · exact absurd h.symm hxb
        · exact h
      have hax : (x == a) = true := by simp [hxa]
      have hbx : (x == b) = false := by simp [hxb]
      simp only [List.indexOf_cons, hax, hbx, cond_true, cond_false]
      exact Nat.succ_pos _
    · by_cases hxb : x = b
      · subst hxb
        have haxs : a ∈ xs := by
          rcases List.mem_cons.mp ha with h | h
          · exact absurd h.symm hxa
          · exact h
        have : k x ≤ k a := List.rel_of_sorted_cons hs a haxs
        exact absurd (lt_of_le_of_lt this hk) (lt_irrefl _)
      · have haxs : a ∈ xs := by
          rcases List.mem_cons.mp ha with h | h
          · exact absurd h.symm hxa
          · exact h
        have hbxs : b ∈ xs := by
          rcases List.mem_cons.mp hb with h | h
          · exact absurd h.symm hxb
          · exact h
        have hax : (x == a) = false := by
          simp only [beq_eq_false_iff_ne]; exact hxa
        have hbx : (x == b) = false := by
          simp only [beq_eq_false_iff_ne]; exact hxb
        simp only [List.indexOf_cons, hax, hbx, cond_false]
        exact Nat.succ_lt_succ (ih hs.of_cons haxs hbxs)

/-! ### Helper lemmas for the claims -/

theorem exc_bind_ok {α β : Type} (a : α) (f : α → Except String β) :
    (Except.ok a >>= f : Except String β) = f a := rfl

theorem exc_bind_error {α β : Type} (e : String) (f : α → Except String β) :
    (Except.error e >>= f : Except String β) = Except.error e := rfl

theorem exc_pure {α : Type} (a : α) : (pure a : Except String α) = Except.ok a := rfl

theorem markerFeats_length (sq : ℚ → ℚ) (qvec : Vec) (m : Marker) :
    (markerFeats sq qvec m).length = 5 := rfl

theorem flatMap_markerFeats_length (sq : ℚ → ℚ) (qvec : Vec) (l : List Marker) :
    (l.flatMap (markerFeats sq qvec)).length = 5 * l.length := by
  induction l with
  | nil => simp
  | cons m ms ih =>
    simp only [List.flatMap_cons, List.length_append, markerFeats_length, ih,
      List.length_cons]
    ring

theorem sortByKey_length {α : Type} (k : α → ℚ) (l : List α) :
    (sortByKey k l).length = l.length :=
  (sortByKey_perm k l).length_eq

/-! ### Claim C5 -/

/-- C5: the co-occurrence interpreter is claimed to memoize its result by
the term; the code checks `interpret_cache` but never stores into it, so
the cache leaving `interpret` is always exactly the cache entering it (in
particular a term never already present is still absent afterwards and a
second call recomputes the BM25 scan). -/
theorem C5_cooc_interpret_never_caches (c : Cooc) (cache : CoocCache) (qterm : Str) :
    (coocInterpret c cache qterm).2 = cache := by
  unfold coocInterpret
  cases lookupA cache qterm <;> rfl

/-! ### Claim C6 -/

/-- C6 (amended): `get_features_summary` emits five features per marker for
EVERY marker of the summary with markers in ascending mean-sentiment order
(the stable sort on `sum_senti/(size+1)`), padding with five zeros per
missing marker up to ten; the feature vector hence has `5 * max(n, 10)`
entries, which is 50 exactly when the summary has at most ten markers. -/
theorem C6_amended (p2v : Str → Vec) (sq : ℚ → ℚ) (summary : List Marker) (qterm : Str) :
    (get_features_summary p2v sq summary qterm).1.length = 5 * max summary.length 10 ∧
    (get_features_summary p2v sq summary qterm).2 = sortByKey meanSenti summary ∧
    (get_features_summary p2v sq summary qterm).2.Perm summary ∧
    (get_features_summary p2v sq summary qterm).2.Sorted
      (fun m1 m2 => meanSenti m1 ≤ meanSenti m2) ∧
    (get_features_summary p2v sq summary qterm).1 =
      (sortByKey meanSenti summary).flatMap (markerFeats sq (p2v qterm)) ++
        List.replicate (5 * (10 - summary.length)) 0 := by
  refine ⟨?_, rfl, sortByKey_perm _ _, sortByKey_sorted _ _, rfl⟩
  show ((sortByKey meanSenti summary).flatMap (markerFeats sq (p2v qterm)) ++
      List.replicate (5 * (10 - summary.length)) 0).length = 5 * max summary.length 10
  rw [List.length_append, flatMap_markerFeats_length, List.length_replicate,
    sortByKey_length]
  omega

/-- C6 (counterexample): on a summary of eleven markers the feature vector
has 55 entries, not the claimed 50 — the loop emits five features per
marker for every marker and the padding loop is empty. -/
theorem C6_counterexample :
    (get_features_summary (fun _ => []) (fun _ => 0)
        (List.replicate 11 (Marker.mk [] 0 0)) []).1.length ≠ 50 := by
  have h : (get_features_summary (fun _ => []) (fun _ => 0)
      (List.replicate 11 (Marker.mk [] 0 0)) []).1.length = 55 := by
    show ((sortByKey meanSenti _).flatMap _ ++ List.replicate _ _).length = 55
    rw [List.length_append, flatMap_markerFeats_length, List.length_replicate,
      sortByKey_length]
    simp
  rw [h]
  decide

/-! ### Claim C2 -/

theorem foldlM_tokenStep_ok (env : EmbedEnv) (ws : List Str) (acc : Vec)
    (h : ∀ w ∈ ws, (env.wv w).isSome → (env.idfTok w).isSome) :
    ws.foldlM (tokenStep env) acc =
      .ok (ws.foldl
        (fun res w =>
          match env.wv w, env.idfTok w with
          | some v, some c => vadd res (smul c v)
          | _, _ => res)
        acc) := by
  induction ws generalizing acc with
  | nil => rfl
  | cons w ws ih =>
    have hw := h w (List.mem_cons_self w ws)
    have hws : ∀ x ∈ ws, (env.wv x).isSome → (env.idfTok x).isSome := fun x hx =>
      h x (List.mem_cons_of_mem w hx)
    simp only [List.foldlM_cons, List.foldl_cons]
    cases hv : env.wv w with
    | none =>
      simp only [tokenStep, hv, ih _ hws]
      rfl
    | some v =>
      cases hc : env.idfTok w with
      | none =>
        exfalso
        have := hw (by simp [hv])
        simp [hc] at this
      | some c =>
        simp only [tokenStep, hv, hc, ih _ hws]
        rfl

theorem sumSq_zerosV (d : Nat) : sumSq (zerosV d) = 0 := by
  induction d with
  | zero => rfl
  | succ n ih =>
    simp only [zerosV, List.replicate_succ, sumSq, List.map_cons, List.sum_cons] at *
    simp [ih]

/-- C2 (counterexample): a token present in the word2vec vocabulary but
absent from the IDF table makes `phrase2vec` raise (`self.idf[w]` is not
guarded), so `embed` is not total. -/
theorem C2_counterexample :
    phrase2vec
      ⟨1, fun w => if w = S "foo" then some [1] else none, fun _ => none,
        fun _ => [S "foo"], fun x => x⟩
      [] (S "foo") = .error "KeyError: idf" := rfl

/-- C2 (amended): tokens absent from the word2vec vocabulary are skipped
silently, but a token in the vocabulary whose IDF weight is missing raises
a KeyError; when every in-vocabulary token has an IDF weight, `phrase2vec`
returns the IDF-weighted sum of the contributing token vectors,
L2-normalized when its norm is positive, and in particular the zero vector
when no token contributed (given that the square root of zero is zero). -/
theorem C2_amended (env : EmbedEnv) (cache : P2VCache) (phrase : Str)
    (hmiss : lookupA cache phrase = none)
    (hidf : ∀ w ∈ env.tokenize phrase, (env.wv w).isSome → (env.idfTok w).isSome) :
    phrase2vec env cache phrase =
      .ok (normalizeV env (wsumOk env phrase),
        (phrase, normalizeV env (wsumOk env phrase)) :: cache) ∧
    (env.sqrtQ 0 = 0 → wsumOk env phrase = zerosV env.dim →
      phrase2vec env cache phrase = .ok (zerosV env.dim, (phrase, zerosV env.dim) :: cache)) := by
  have hrun : phrase2vec env cache phrase =
      .ok (normalizeV env (wsumOk env phrase),
        (phrase, normalizeV env (wsumOk env phrase)) :: cache) := by
    unfold phrase2vec phrase2vecRaw
    rw [hmiss, foldlM_tokenStep_ok env _ _ hidf]
    rfl
  refine ⟨hrun, fun hs0 hzero => ?_⟩
  have hnorm : normalizeV env (wsumOk env phrase) = zerosV env.dim := by
    rw [hzero]
    unfold normalizeV
    rw [sumSq_zerosV, hs0]
    simp
  rw [hrun, hnorm]

theorem C2_amended_witness :
    phrase2vec c2wEnv [] (S "a") =
      .ok (normalizeV c2wEnv (wsumOk c2wEnv (S "a")),
        (S "a", normalizeV c2wEnv (wsumOk c2wEnv (S "a"))) :: []) :=
  (C2_amended c2wEnv [] (S "a") rfl (by
    intro w hw _
    simp only [c2wEnv, List.mem_singleton] at hw
    subst hw
    simp [c2wEnv])).1

/-! ### Claim C10 -/

/-- C10: in both the agnostic and boolean objective policies a boolean
predicate compares operand and entity value lowercased while a categorical
predicate compares them exactly, so a categorical value differing from the
operand only in letter case is a mismatch (times 0.3 under agnostic, times
1e-15 under boolean) while the same boolean value is a match (no penalty
under either policy). -/
theorem C10_bool_insensitive_cate_sensitive (env : OpineEnv)
    (ents : List (Str × Entity)) (scores : List (Str × ℚ)) (bid : Str) (ent : Entity)
    (attrName oprand s : Str)
    (hent : lookupA ents bid = some ent)
    (hval : lookupA ent.objs attrName = some (.str s))
    (hne : s ≠ oprand) (hlow : toLow s = toLow oprand) :
    agnStep env ents ⟨S "cate", attrName, S "=", oprand⟩ scores bid =
      .ok (setScore scores bid (scoreGet scores bid * (3 / 10))) ∧
    boolStep env ents ⟨S "cate", attrName, S "=", oprand⟩ scores bid =
      .ok (setScore scores bid (scoreGet scores bid * eps15)) ∧
    agnStep env ents ⟨S "bool", attrName, S "=", oprand⟩ scores bid = .ok scores ∧
    boolStep env ents ⟨S "bool", attrName, S "=", oprand⟩ scores bid = .ok scores := by
  have hcate : cateMismatch (.str s) oprand = true := by
    simp only [cateMismatch, if_neg hne]
  have hgetEnt : getEnt ents bid = .ok ent := by simp [getEnt, hent]
  have hcb : ¬ (S "cate" = S "bool") := by decide
  have hcc : (S "cate" = S "cate") := rfl
  refine ⟨?_, ?_, ?_, ?_⟩
  · simp [agnStep, hgetEnt, hval, hcb, hcc, hcate, exc_bind_ok, exc_pure]
  · simp [boolStep, hgetEnt, hval, hcb, hcc, hcate, exc_bind_ok, exc_pure]
  · simp [agnStep, hgetEnt, hval, hlow, exc_bind_ok, exc_pure]
  · simp [boolStep, hgetEnt, hval, hlow, exc_bind_ok, exc_pure]

theorem C10_bool_insensitive_cate_sensitive_witness :
    agnStep c10Env c10Ents ⟨S "cate", S "city", S "=", S "tokyo"⟩ [(S "b", 1)] (S "b") =
      .ok (setScore [(S "b", 1)] (S "b") (scoreGet [(S "b", 1)] (S "b") * (3 / 10))) ∧
    boolStep c10Env c10Ents ⟨S "cate", S "city", S "=", S "tokyo"⟩ [(S "b", 1)] (S "b") =
      .ok (setScore [(S "b", 1)] (S "b") (scoreGet [(S "b", 1)] (S "b") * eps15)) ∧
    agnStep c10Env c10Ents ⟨S "bool", S "city", S "=", S "tokyo"⟩ [(S "b", 1)] (S "b") =
      .ok [(S "b", 1)] ∧
    boolStep c10Env c10Ents ⟨S "bool", S "city", S "=", S "tokyo"⟩ [(S "b", 1)] (S "b") =
      .ok [(S "b", 1)] :=
  C10_bool_insensitive_cate_sensitive c10Env c10Ents [(S "b", 1)] (S "b")
    ⟨none, none, [(S "city", ObjVal.str (S "Tokyo"))]⟩ (S "city") (S "tokyo") (S "Tokyo")
    (by simp [c10Ents, lookupA]) (by simp [lookupA]) (by decide) (by decide)

/-! ### Claim C8 -/

/-- C8: for a query term not in the interpretation cache, the co-occurrence
fallback is invoked exactly when the nearest-neighbour cosine similarity is
below 0.4 or the term tokenizes to a single token: when the trigger fails
the result is the primary nearest-neighbour result whatever the fallback
would say (the result does not depend on the fallback at all), and when the
trigger holds the fallback result supersedes the primary result exactly
when its attribute is non-null, the primary result standing otherwise. -/
theorem C8_fallback_trigger (env : InterpEnv) (cache : InterpCache) (qterm : Str)
    (hmiss : lookupA cache qterm = none) :
    (¬ (nnSim env qterm < 2 / 5 ∨ (env.tokenize qterm).length = 1) →
      ∀ cooc1 cooc2 : Str → Option (Str × Str),
        interpretNN env cooc1 cache qterm (2 / 5) = interpretNN env cooc2 cache qterm (2 / 5) ∧
        (interpretNN env cooc1 cache qterm (2 / 5)).1 = primaryRes env qterm) ∧
    ((nnSim env qterm < 2 / 5 ∨ (env.tokenize qterm).length = 1) →
      ∀ cooc : Str → Option (Str × Str),
        (∀ r, cooc qterm = some r → (interpretNN env cooc cache qterm (2 / 5)).1 = r) ∧
        (cooc qterm = none →
          (interpretNN env cooc cache qterm (2 / 5)).1 = primaryRes env qterm)) := by
  constructor
  · intro hno cooc1 cooc2
    simp only [interpretNN, hmiss, if_neg hno]
    exact ⟨trivial, trivial⟩
  · intro hyes cooc
    constructor
    · intro r hr
      simp only [interpretNN, hmiss, if_pos hyes, hr]
    · intro hr
      simp only [interpretNN, hmiss, if_pos hyes, hr]

theorem C8_fallback_trigger_witness :
    (interpretNN c8Env (fun _ => some (S "cA", S "pA")) [] (S "q") (2 / 5)).1 =
      (S "cA", S "pA") :=
  ((C8_fallback_trigger c8Env [] (S "q") rfl).2 (Or.inr rfl)
    (fun _ => some (S "cA", S "pA"))).1 (S "cA", S "pA") rfl

theorem splitPred_ok_iff (t : Str) : (∃ p, splitPred t = .ok p) ↔ goodShape t = true := by
  unfold splitPred goodShape
  cases h1 : splitCh ' ' t with
  | nil => simp
  | cons a l1 =>
    cases l1 with
    | nil => simp
    | cons b l2 =>
      cases l2 with
      | nil => simp
      | cons c l3 =>
        cases l3 with
        | cons d l4 => simp
        | nil =>
          cases h2 : splitCh ':' a with
          | nil => simp [h2]
          | cons x m1 =>
            cases m1 with
            | nil => simp [h2]
            | cons y m2 =>
              cases m2 with
              | nil => simp [h2]
              | cons z m3 => simp [h2]

theorem splitPred_error_of_badShape (t : Str) (h : goodShape t = false) :
    ∃ msg, splitPred t = .error msg := by
  cases hs : splitPred t with
  | error msg => exact ⟨msg, rfl⟩
  | ok p =>
    exfalso
    have := (splitPred_ok_iff t).mp ⟨p, hs⟩
    rw [h] at this
    cases this

theorem decompose_fold_error (q : List Str) (acc : List Str × List Pred)
    (hbad : ∃ t ∈ q, t.contains ':' = true ∧ goodShape t = false) :
    ∃ msg, q.foldlM decStep acc = .error msg := by
  induction q generalizing acc with
  | nil => obtain ⟨t, ht, _⟩ := hbad; cases ht
  | cons t q ih =>
    simp only [List.foldlM_cons]
    by_cases hcol : t.contains ':' = true
    · have hmem : ':' ∈ t := List.mem_of_elem_eq_true hcol
      cases hsp : splitPred t with
      | error msg =>
        refine ⟨msg, ?_⟩
        simp [decStep, hmem, hsp, exc_bind_error]
      | ok p =>
        have hgood : goodShape t = true := (splitPred_ok_iff t).mp ⟨p, hsp⟩
        have hbad2 : ∃ s ∈ q, s.contains ':' = true ∧ goodShape s = false := by
          obtain ⟨s, hs, hc, hg⟩ := hbad
          rcases List.mem_cons.mp hs with rfl | hs2
          · rw [hgood] at hg; cases hg
          · exact ⟨s, hs2, hc, hg⟩
        obtain ⟨msg, hmsg⟩ := ih (acc.1, acc.2 ++ [p]) hbad2
        refine ⟨msg, ?_⟩
        simp [decStep, hmem, hsp, exc_bind_ok, exc_pure, hmsg]
    · have hmem : ¬ (':' ∈ t) := fun h => hcol (List.elem_eq_true_of_mem h)
      have hbad2 : ∃ s ∈ q, s.contains ':' = true ∧ goodShape s = false := by
        obtain ⟨s, hs, hc, hg⟩ := hbad
        rcases List.mem_cons.mp hs with rfl | hs2
        · exact absurd hc hcol
        · exact ⟨s, hs2, hc, hg⟩
      obtain ⟨msg, hmsg⟩ := ih (acc.1 ++ [t], acc.2) hbad2
      refine ⟨msg, ?_⟩
      simp [decStep, hmem, exc_pure, exc_bind_ok, hmsg]

theorem decompose_fold_ok (q : List Str) (acc : List Str × List Pred)
    (hgood : ∀ t ∈ q, t.contains ':' = true → goodShape t = true) :
    ∃ r, q.foldlM decStep acc = .ok r := by
  induction q generalizing acc with
  | nil => exact ⟨acc, rfl⟩
  | cons t q ih =>
    have hq : ∀ s ∈ q, s.contains ':' = true → goodShape s = true := fun s hs =>
      hgood s (List.mem_cons_of_mem t hs)
    simp only [List.foldlM_cons]
    by_cases hcol : t.contains ':' = true
    · have hmem : ':' ∈ t := List.mem_of_elem_eq_true hcol
      have hg := hgood t (List.mem_cons_self t q) hcol
      obtain ⟨p, hp⟩ := (splitPred_ok_iff t).mpr hg
      obtain ⟨r, hr⟩ := ih (acc.1, acc.2 ++ [p]) hq
      refine ⟨r, ?_⟩
      simp [decStep, hmem, hp, exc_bind_ok, exc_pure, hr]
    · have hmem : ¬ (':' ∈ t) := fun h => hcol (List.elem_eq_true_of_mem h)
      obtain ⟨r, hr⟩ := ih (acc.1 ++ [t], acc.2) hq
      refine ⟨r, ?_⟩
      simp [decStep, hmem, exc_pure, exc_bind_ok, hr]

/-- C4 (counterexample): the term `foo:price < 100` has an unknown type tag
yet decomposes without error into the predicate `('foo','price','<','100')`
— the decomposition validates only the field shapes, never the type tag, so
the claim that an unknown type tag is a fatal parse error at
query-decomposition time is false. -/
theorem C4_counterexample :
    decompose [S "foo:price < 100"] =
      .ok ([], [⟨S "foo", S "price", S "<", S "100"⟩]) := rfl

/-- C4 (amended): a colon-containing term aborts `opine` with a parse error
at query-decomposition time, before any entity is scored, exactly when it
does not split by single spaces into three fields with exactly one colon in
the first; terms of that shape always decompose, whatever their type tag
(an unknown tag is accepted here and can only fail later, during scoring). -/
theorem C4_amended (query : List Str) :
    ((∃ t ∈ query, t.contains ':' = true ∧ goodShape t = false) →
      ∀ env mode ctx bids0 mc0, ∃ msg,
        opineRun env mode ctx query bids0 mc0 = .error msg) ∧
    ((∀ t ∈ query, t.contains ':' = true → goodShape t = true) →
      ∃ r, decompose query = .ok r) := by
  constructor
  · intro hbad env mode ctx bids0 mc0
    obtain ⟨msg, hmsg⟩ := decompose_fold_error query ([], []) hbad
    refine ⟨msg, ?_⟩
    have hdec : decompose query = .error msg := hmsg
    simp [opineRun, hdec, exc_bind_error]
  · intro hgood
    exact decompose_fold_ok query ([], []) hgood

theorem C4_amended_witness :
    (∃ msg, opineRun c10Env (S "marker") (S "boolean") [S "bool:x ="] (some []) [] =
      .error msg) ∧
    (∃ r, decompose [S "bool:x = y"] = .ok r) :=
  ⟨(C4_amended [S "bool:x ="]).1 (⟨S "bool:x =", by simp, by decide, by decide⟩)
      c10Env (S "marker") (S "boolean") (some []) [],
    (C4_amended [S "bool:x = y"]).2 (by
      intro t ht _
      simp only [List.mem_singleton] at ht
      subst ht
      decide)⟩

/-! ### Claim C9 -/

/-- Inversion of a successful `opineRun`: the returned ranking is the
stable ascending sort of the candidate list by negated final score. -/
theorem opineRun_ok_out (env : OpineEnv) (mode ctx : Str) (query : List Str)
    (bids : List Str) (mc0 : List (MKey × ℚ)) (out : List Str) (st : RunSt)
    (hrun : opineRun env mode ctx query (some bids) mc0 = .ok (out, st)) :
    out = sortByKey (fun b => -(scoreGet st.scores b)) bids := by
  unfold opineRun at hrun
  cases hdec : decompose query with
  | error e =>
    rw [hdec, exc_bind_error] at hrun
    cases hrun
  | ok r =>
    obtain ⟨subs, preds⟩ := r
    rw [hdec, exc_bind_ok] at hrun
    dsimp only at hrun
    cases hsub : subs.foldlM (subjStep env mode bids)
        ⟨initScores bids, mc0, env.ents⟩ with
    | error e =>
      rw [hsub, exc_bind_error] at hrun
      cases hrun
    | ok st1 =>
      rw [hsub, exc_bind_ok] at hrun
      cases hpol : policyPhase env mode ctx bids subs preds st1 with
      | error e =>
        rw [hpol, exc_bind_error] at hrun
        cases hrun
      | ok st2 =>
        rw [hpol, exc_bind_ok] at hrun
        rw [exc_pure] at hrun
        injection hrun with h1
        injection h1 with hout hst
        rw [← hst]
        exact hout.symm

/-- C9: whenever `opine` returns a ranking, it is a permutation of the
candidate list sorted by descending final per-entity score, and candidates
with equal scores keep their original relative input order (for every score
value, the sub-list of candidates carrying it is exactly the sub-list of
the input carrying it). -/
theorem C9_stable_descending_sort (env : OpineEnv) (mode ctx : Str) (query : List Str)
    (bids : List Str) (mc0 : List (MKey × ℚ)) (out : List Str) (st : RunSt)
    (hrun : opineRun env mode ctx query (some bids) mc0 = .ok (out, st)) :
    out.Perm bids ∧
    out.Sorted (fun a b => scoreGet st.scores b ≤ scoreGet st.scores a) ∧
    ∀ c : ℚ, out.filter (fun b => scoreGet st.scores b = c) =
      bids.filter (fun b => scoreGet st.scores b = c) := by
  have hout := opineRun_ok_out env mode ctx query bids mc0 out st hrun
  subst hout
  refine ⟨sortByKey_perm _ _, ?_, ?_⟩
  · have hs := sortByKey_sorted (fun b => -(scoreGet st.scores b)) bids
    exact hs.imp fun h => by simpa using h
  · intro c
    have hf := sortByKey_filter_key_eq (fun b => -(scoreGet st.scores b)) bids (-c)
    have hcongr : ∀ l : List Str,
        l.filter (fun b => -(scoreGet st.scores b) = -c) =
          l.filter (fun b => scoreGet st.scores b = c) := by
      intro l
      apply List.filter_congr
      intro b _
      simp
    rw [hcongr, hcongr] at hf
    exact hf

theorem C9_stable_descending_sort_witness :
    ([S "b"] : List Str).Perm [S "b"] ∧
    List.Sorted (fun a b => scoreGet c9St.scores b ≤ scoreGet c9St.scores a) [S "b"] ∧
    (∀ c : ℚ, [S "b"].filter (fun b => scoreGet c9St.scores b = c) =
      [S "b"].filter (fun b => scoreGet c9St.scores b = c)) :=
  C9_stable_descending_sort c10Env (S "marker") (S "boolean") [] [S "b"] [] [S "b"] c9St rfl

theorem summsRel_refl (o : Option (List (Str × List Marker))) : SummsRel o o := by
  cases o with
  | none => trivial
  | some s =>
    exact List.forall₂_same.mpr fun a _ => ⟨rfl, List.Perm.refl _⟩

theorem entityRel_refl (e : Entity) : EntityRel e e :=
  ⟨rfl, rfl, summsRel_refl e.summaries⟩

theorem entsRel_refl (es : List (Str × Entity)) : EntsRel es es :=
  List.forall₂_same.mpr fun a _ => ⟨rfl, entityRel_refl a.2⟩

theorem forall₂_trans_of {α : Type} {r : α → α → Prop}
    (ht : ∀ a b c, r a b → r b c → r a c) :
    ∀ {l1 l2 l3 : List α}, List.Forall₂ r l1 l2 → List.Forall₂ r l2 l3 →
      List.Forall₂ r l1 l3 := by
  intro l1 l2 l3 h12 h23
  induction h12 generalizing l3 with
  | nil => cases h23; exact List.Forall₂.nil
  | cons hab h ih =>
    cases h23 with
    | cons hbc h2 => exact List.Forall₂.cons (ht _ _ _ hab hbc) (ih h2)

theorem summsRel_trans {o1 o2 o3 : Option (List (Str × List Marker))}
    (h12 : SummsRel o1 o2) (h23 : SummsRel o2 o3) : SummsRel o1 o3 := by
  cases o1 <;> cases o2 <;> cases o3 <;> simp only [SummsRel] at *
  exact forall₂_trans_of
    (fun a b c hab hbc => ⟨hab.1.trans hbc.1, hab.2.trans hbc.2⟩) h12 h23

theorem entityRel_trans {e f g : Entity} (h12 : EntityRel e f) (h23 : EntityRel f g) :
    EntityRel e g :=
  ⟨h12.1.trans h23.1, h12.2.1.trans h23.2.1, summsRel_trans h12.2.2 h23.2.2⟩

theorem entsRel_trans {es fs gs : List (Str × Entity)} (h12 : EntsRel es fs)
    (h23 : EntsRel fs gs) : EntsRel es gs :=
  forall₂_trans_of
    (fun a b c hab hbc => ⟨hab.1.trans hbc.1, entityRel_trans hab.2 hbc.2⟩) h12 h23

/-- Replacing a stored marker list by a permutation of the value the lookup
returns relates the summary map to its update. -/
theorem summsRel_updFirst (sl : List (Str × List Marker)) (attrName : Str)
    (summary newl : List Marker) (hl : lookupA sl attrName = some summary)
    (hperm : newl.Perm summary) :
    List.Forall₂ (fun p q => p.1 = q.1 ∧ p.2.Perm q.2) sl (updFirst sl attrName newl) := by
  induction sl with
  | nil => cases hl
  | cons p rest ih =>
    obtain ⟨k, v⟩ := p
    by_cases hk : k = attrName
    · subst hk
      simp [lookupA] at hl
      subst hl
      simp only [updFirst, if_pos rfl]
      exact List.Forall₂.cons ⟨rfl, hperm.symm⟩
        (List.forall₂_same.mpr fun a _ => ⟨rfl, List.Perm.refl _⟩)
    · simp only [lookupA, if_neg hk] at hl
      simp only [updFirst, if_neg hk]
      exact List.Forall₂.cons ⟨rfl, List.Perm.refl _⟩ (ih hl)

/-- `setSumm` with a permutation of the looked-up marker list relates the
store to its update. -/
theorem entsRel_setSumm (ents : List (Str × Entity)) (bid attrName : Str)
    (ent : Entity) (sl : List (Str × List Marker)) (summary newl : List Marker)
    (hent : lookupA ents bid = some ent) (hsl : ent.summaries = some sl)
    (hl : lookupA sl attrName = some summary) (hperm : newl.Perm summary) :
    EntsRel ents (setSumm ents bid attrName newl) := by
  induction ents with
  | nil => cases hent
  | cons p rest ih =>
    obtain ⟨k, e⟩ := p
    by_cases hk : k = bid
    · subst hk
      simp [lookupA] at hent
      subst hent
      simp only [setSumm, if_pos rfl]
      refine List.Forall₂.cons ⟨rfl, rfl, rfl, ?_⟩ (entsRel_refl rest)
      rw [hsl]
      simp only [Option.map_some, SummsRel]
      exact summsRel_updFirst sl attrName summary newl hl hperm
    · simp only [lookupA, if_neg hk] at hent
      simp only [setSumm, if_neg hk]
      exact List.Forall₂.cons ⟨rfl, entityRel_refl e⟩ (ih hent)

theorem getEnt_ok (ents : List (Str × Entity)) (bid : Str) (e : Entity)
    (h : getEnt ents bid = .ok e) : lookupA ents bid = some e := by
  unfold getEnt at h
  split at h
  next e2 heq =>
    injection h with h1
    rw [← h1]
    exact heq
  next => cases h

theorem membershipObjTail_entsRel (env : OpineEnv) (mode : Str) (st : RunSt)
    (bid attrName qterm : Str) (objPred : Option Pred) (ent : Entity) (atype : Str)
    (value : ObjVal) (oattr opr oprand : Str) (q : ℚ) (st1 : RunSt)
    (hlook : lookupA st.ents bid = some ent)
    (h : membershipObjTail env mode st bid attrName qterm objPred ent atype value
      oattr opr oprand = .ok (q, st1)) :
    EntsRel st.ents st1.ents := by
  unfold membershipObjTail at h
  cases hof : get_features_obj env atype value oattr opr oprand with
  | error e =>
    rw [hof, exc_bind_error] at h
    cases h
  | ok objFeats =>
    rw [hof, exc_bind_ok] at h
    split at h
    · split at h
      case h_1 summary hsum =>
        rw [exc_pure] at h
        injection h with h1
        injection h1 with hq hst
        rw [← hst]
        obtain ⟨sl, hsl, hl⟩ := Option.bind_eq_some.mp hsum
        exact entsRel_setSumm st.ents bid attrName ent sl summary _ hlook hsl hl
          (sortByKey_perm _ _)
      case h_2 hsum =>
        rw [exc_pure] at h
        injection h with h1
        injection h1 with hq hst
        rw [← hst]
        exact entsRel_refl st.ents
    · split at h
      case h_1 hist hhist =>
        cases hf : get_features_phrases env hist qterm with
        | error e =>
          rw [hf, exc_bind_error] at h
          cases h
        | ok feats =>
          rw [hf, exc_bind_ok, exc_pure] at h
          injection h with h1
          injection h1 with hq hst
          rw [← hst]
          exact entsRel_refl st.ents
      case h_2 hhist =>
        rw [exc_pure] at h
        injection h with h1
        injection h1 with hq hst
        rw [← hst]
        exact entsRel_refl st.ents

theorem membership_entsRel (env : OpineEnv) (mode : Str) (st : RunSt)
    (bid attrName qterm : Str) (objPred : Option Pred) (q : ℚ) (st1 : RunSt)
    (h : membership env mode st bid attrName qterm objPred = .ok (q, st1)) :
    EntsRel st.ents st1.ents := by
  unfold membership at h
  split at h
  case isTrue =>
    split at h
    case h_1 v hv =>
      injection h with h1
      injection h1 with hq hst
      rw [← hst]
      exact entsRel_refl st.ents
    case h_2 hv =>
      cases hg : getEnt st.ents bid with
      | error e =>
        rw [hg, exc_bind_error] at h
        cases h
      | ok ent =>
        rw [hg, exc_bind_ok] at h
        have hlook := getEnt_ok st.ents bid ent hg
        split at h
        · split at h
          case h_1 summary hsum =>
            rw [exc_pure] at h
            injection h with h1
            injection h1 with hq hst
            rw [← hst]
            obtain ⟨sl, hsl, hl⟩ := Option.bind_eq_some.mp hsum
            exact entsRel_setSumm st.ents bid attrName ent sl summary _ hlook hsl hl
              (sortByKey_perm _ _)
          case h_2 hsum =>
            rw [exc_pure] at h
            injection h with h1
            injection h1 with hq hst
            rw [← hst]
            exact entsRel_refl st.ents
        · split at h
          case h_1 hist hhist =>
            cases hf : get_features_phrases env hist qterm with
            | error e =>
              rw [hf, exc_bind_error] at h
              cases h
            | ok feats =>
              rw [hf, exc_bind_ok, exc_pure] at h
              injection h with h1
              injection h1 with hq hst
              rw [← hst]
              exact entsRel_refl st.ents
          case h_2 hhist =>
            rw [exc_pure] at h
            injection h with h1
            injection h1 with hq hst
            rw [← hst]
            exact entsRel_refl st.ents
  case isFalse =>
    split at h
    case h_1 v hv =>
      injection h with h1
      injection h1 with hq hst
      rw [← hst]
      exact entsRel_refl st.ents
    case h_2 hv =>
      cases hg : getEnt st.ents bid with
      | error e =>
        rw [hg, exc_bind_error] at h
        cases h
      | ok ent =>
        rw [hg, exc_bind_ok] at h
        have hlook := getEnt_ok st.ents bid ent hg
        cases objPred with
        | none =>
          dsimp only at h
          exact membershipObjTail_entsRel env mode st bid attrName qterm none ent _ _ _ _ _
            q st1 hlook h
        | some p =>
          dsimp only at h
          cases hl : lookupA ent.objs p.attr with
          | none =>
            rw [hl] at h
            exact membershipObjTail_entsRel env mode st bid attrName qterm (some p) ent
              _ _ _ _ _ q st1 hlook h
          | some v =>
            rw [hl] at h
            exact membershipObjTail_entsRel env mode st bid attrName qterm (some p) ent
              _ _ _ _ _ q st1 hlook h

theorem foldlM_entsRel {β : Type} (f : RunSt → β → Except String RunSt)
    (hstep : ∀ st x st1, f st x = .ok st1 → EntsRel st.ents st1.ents) :
    ∀ (l : List β) (st st1 : RunSt), l.foldlM f st = .ok st1 →
      EntsRel st.ents st1.ents := by
  intro l
  induction l with
  | nil =>
    intro st st1 h
    injection h with h1
    rw [← h1]
    exact entsRel_refl st.ents
  | cons x xs ih =>
    intro st st1 h
    rw [List.foldlM_cons] at h
    cases hf : f st x with
    | error e =>
      rw [hf, exc_bind_error] at h
      cases h
    | ok st2 =>
      rw [hf, exc_bind_ok] at h
      exact entsRel_trans (hstep st x st2 hf) (ih st2 st1 h)

theorem subjBidStep_entsRel (env : OpineEnv) (mode attrName qterm : Str) (st : RunSt)
    (bid : Str) (st1 : RunSt) (h : subjBidStep env mode attrName qterm st bid = .ok st1) :
    EntsRel st.ents st1.ents := by
  unfold subjBidStep at h
  cases hm : membership env mode st bid attrName qterm none with
  | error e =>
    rw [hm, exc_bind_error] at h
    cases h
  | ok r =>
    obtain ⟨q, st2⟩ := r
    rw [hm, exc_bind_ok] at h
    dsimp only at h
    rw [exc_pure] at h
    injection h with h1
    rw [← h1]
    exact membership_entsRel env mode st bid attrName qterm none q st2 hm

theorem subjStep_entsRel (env : OpineEnv) (mode : Str) (bids : List Str) (st : RunSt)
    (qterm0 : Str) (st1 : RunSt) (h : subjStep env mode bids st qterm0 = .ok st1) :
    EntsRel st.ents st1.ents := by
  unfold subjStep at h
  exact foldlM_entsRel _ (fun s x s1 hx => subjBidStep_entsRel env mode _ _ s x s1 hx)
    bids st st1 h

theorem sensBidStep_entsRel (env : OpineEnv) (mode attrName qterm : Str) (p : Pred)
    (st : RunSt) (bid : Str) (st1 : RunSt)
    (h : sensBidStep env mode attrName qterm p st bid = .ok st1) :
    EntsRel st.ents st1.ents := by
  unfold sensBidStep at h
  cases hm : membership env mode st bid attrName qterm (some p) with
  | error e =>
    rw [hm, exc_bind_error] at h
    cases h
  | ok r =>
    obtain ⟨q, st2⟩ := r
    rw [hm, exc_bind_ok] at h
    dsimp only at h
    rw [exc_pure] at h
    injection h with h1
    rw [← h1]
    exact membership_entsRel env mode st bid attrName qterm (some p) q st2 hm

theorem sensStep_entsRel (env : OpineEnv) (mode : Str) (bids subs : List Str) (st : RunSt)
    (p : Pred) (st1 : RunSt) (h : sensStep env mode bids subs st p = .ok st1) :
    EntsRel st.ents st1.ents := by
  unfold sensStep at h
  refine foldlM_entsRel _ ?_ subs st st1 h
  intro s qterm0 s1 hx
  exact foldlM_entsRel _ (fun t b t1 ht => sensBidStep_entsRel env mode _ _ p t b t1 ht)
    bids s s1 hx

theorem policyPhase_entsRel (env : OpineEnv) (mode ctx : Str) (bids subs : List Str)
    (preds : List Pred) (st1 st2 : RunSt)
    (h : policyPhase env mode ctx bids subs preds st1 = .ok st2) :
    EntsRel st1.ents st2.ents := by
  unfold policyPhase at h
  split at h
  · exact foldlM_entsRel _ (fun s p s1 hp => sensStep_entsRel env mode bids subs s p s1 hp)
      preds st1 st2 h
  · split at h
    · cases hsc : preds.foldlM (fun sc p => bids.foldlM (agnStep env st1.ents p) sc)
          st1.scores with
      | error e =>
        rw [hsc, exc_bind_error] at h
        cases h
      | ok sc =>
        rw [hsc, exc_bind_ok, exc_pure] at h
        injection h with h1
        rw [← h1]
        exact entsRel_refl st1.ents
    · split at h
      · cases hsc : preds.foldlM (fun sc p => bids.foldlM (boolStep env st1.ents p) sc)
            st1.scores with
        | error e =>
          rw [hsc, exc_bind_error] at h
          cases h
        | ok sc =>
          rw [hsc, exc_bind_ok, exc_pure] at h
          injection h with h1
          rw [← h1]
          exact entsRel_refl st1.ents
      · rw [exc_pure] at h
        injection h with h1
        rw [← h1]
        exact entsRel_refl st1.ents

/-- C3 (amended): any successful `opine` call leaves the entity ids, the
histograms and the objective values of every entity exactly as loaded, and
leaves every summary with the same attribute keys and, per attribute, a
permutation of the original marker list: marker-based feature extraction
sorts the stored marker list in place by mean sentiment ascending, so the
stored order may change, but nothing else does. -/
theorem C3_amended (env : OpineEnv) (mode ctx : Str) (query : List Str)
    (bids0 : Option (List Str)) (mc0 : List (MKey × ℚ)) (out : List Str) (st : RunSt)
    (hrun : opineRun env mode ctx query bids0 mc0 = .ok (out, st)) :
    EntsRel env.ents st.ents := by
  unfold opineRun at hrun
  cases hdec : decompose query with
  | error e =>
    rw [hdec, exc_bind_error] at hrun
    cases hrun
  | ok r =>
    obtain ⟨subs, preds⟩ := r
    rw [hdec, exc_bind_ok] at hrun
    dsimp only at hrun
    generalize (match bids0 with
      | some l => l
      | none => List.map (fun (x : Str × Entity) => x.1) env.ents) = bids at hrun
    cases hsub : subs.foldlM (subjStep env mode bids)
        ⟨initScores bids, mc0, env.ents⟩ with
    | error e =>
      rw [hsub, exc_bind_error] at hrun
      cases hrun
    | ok st1 =>
      rw [hsub, exc_bind_ok] at hrun
      cases hpol : policyPhase env mode ctx bids subs preds st1 with
      | error e =>
        rw [hpol, exc_bind_error] at hrun
        cases hrun
      | ok st2 =>
        rw [hpol, exc_bind_ok, exc_pure] at hrun
        injection hrun with h1
        injection h1 with hout hst
        rw [← hst]
        have h01 : EntsRel env.ents st1.ents :=
          foldlM_entsRel _ (fun s x s1 hx => subjStep_entsRel env mode _ s x s1 hx)
            subs _ st1 hsub
        exact entsRel_trans h01
          (policyPhase_entsRel env mode ctx _ subs preds st1 st2 hpol)

/-- C3 (counterexample): computing the marker-based membership features for
an (entity, attribute) pair whose stored marker list is not sorted by mean
sentiment DOES modify the stored list: after one `membership` call in
marker mode the stored list comes back reordered. -/
theorem C3_counterexample :
    (membership c3Env (S "marker") c3St (S "b") (S "a") (S "q") none).map
        (fun p => p.2.ents) ≠ .ok c3St.ents := by
  have hsort : sortByKey meanSenti [c3m1, c3m2] = [c3m2, c3m1] := by
    norm_num [sortByKey, insKey, meanSenti, c3m1, c3m2]
  have hmem : membership c3Env (S "marker") c3St (S "b") (S "a") (S "q") none =
      .ok (c3Env.markerPredict
          (get_features_summary c3Env.p2v c3Env.sqrtQ [c3m1, c3m2] (S "q")).1,
        ⟨[], [((S "b", S "a", S "q", none),
            c3Env.markerPredict
              (get_features_summary c3Env.p2v c3Env.sqrtQ [c3m1, c3m2] (S "q")).1)],
          setSumm c3Ents (S "b") (S "a")
            (get_features_summary c3Env.p2v c3Env.sqrtQ [c3m1, c3m2] (S "q")).2⟩) := rfl
  intro hEq
  rw [hmem] at hEq
  simp only [Except.map] at hEq
  injection hEq with h1
  have h2 : setSumm c3Ents (S "b") (S "a")
      (get_features_summary c3Env.p2v c3Env.sqrtQ [c3m1, c3m2] (S "q")).2 = c3Ents := h1
  have hgfs : (get_features_summary c3Env.p2v c3Env.sqrtQ [c3m1, c3m2] (S "q")).2 =
      [c3m2, c3m1] := hsort
  rw [hgfs] at h2
  simp [setSumm, updFirst, c3Ents, c3m1, c3m2, Marker.mk.injEq, Entity.mk.injEq] at h2

theorem C3_amended_witness : EntsRel c10Env.ents c9St.ents :=
  C3_amended c10Env (S "marker") (S "boolean") [] (some [S "b"]) [] [S "b"] c9St rfl

theorem eps15_ne_one : eps15 ≠ 1 := by norm_num [eps15]

theorem boolStep_eq_factor (env : OpineEnv) (ents : List (Str × Entity)) (p : Pred)
    (scores : List (Str × ℚ)) (bid : Str) :
    boolStep env ents p scores bid =
      (boolFactorE env ents p bid).map fun f =>
        if f = 1 then scores else setScore scores bid (scoreGet scores bid * f) := by
  unfold boolStep boolFactorE
  cases hg : getEnt ents bid with
  | error e => simp [exc_bind_error, Except.map]
  | ok ent =>
    simp only [exc_bind_ok]
    cases hl : lookupA ent.objs p.attr with
    | none => simp [exc_pure, Except.map]
    | some val =>
      by_cases hb : p.atype = S "bool"
      · simp only [hb, if_true]
        cases val with
        | num q => simp [Except.map]
        | str s =>
          by_cases hmis : toLow s ≠ toLow p.oprand
          · simp [hmis, exc_pure, Except.map, eps15_ne_one]
          · simp [hmis, exc_pure, Except.map]
      · simp only [hb, if_false]
        by_cases hc : p.atype = S "cate"
        · simp only [hc, if_true]
          by_cases hmis : cateMismatch val p.oprand
          · simp [hmis, exc_pure, Except.map, eps15_ne_one]
          · simp [hmis, exc_pure, Except.map]
        · simp only [hc, if_false]
          cases hv : objToFloat env.parseFloat val with
          | error e => simp [exc_bind_error, Except.map]
          | ok vv =>
            simp only [exc_bind_ok]
            cases ho : parseF env.parseFloat p.oprand with
            | error e => simp [exc_bind_error, Except.map]
            | ok ov =>
              simp only [exc_bind_ok]
              by_cases hop : p.op = S "<"
              · simp only [hop, if_true]
                by_cases hcmp : ov ≤ vv
                · simp [hcmp, exc_pure, Except.map, eps15_ne_one]
                · simp [hcmp, exc_pure, Except.map]
              · simp only [hop, if_false]
                by_cases hcmp : vv ≤ ov
                · simp [hcmp, exc_pure, Except.map, eps15_ne_one]
                · simp [hcmp, exc_pure, Except.map]

theorem boolFactorE_ok_range (env : OpineEnv) (ents : List (Str × Entity)) (p : Pred)
    (bid : Str) (f : ℚ) (h : boolFactorE env ents p bid = .ok f) : f = 1 ∨ f = eps15 := by
  unfold boolFactorE at h
  cases hg : getEnt ents bid with
  | error e => rw [hg, exc_bind_error] at h; cases h
  | ok ent =>
    rw [hg, exc_bind_ok] at h
    split at h
    · rw [exc_pure] at h
      injection h with h1
      exact Or.inl h1.symm
    · split at h
      · -- boolean type tag
        split at h
        · cases h
        · rw [exc_pure] at h
          injection h with h1
          split at h1
          · exact Or.inr h1.symm
          · exact Or.inl h1.symm
      · split at h
        · -- categorical type tag
          rw [exc_pure] at h
          injection h with h1
          split at h1
          · exact Or.inr h1.symm
          · exact Or.inl h1.symm
        · -- numeric branch
          rename_i val hval hb hc
          cases hv : objToFloat env.parseFloat val with
          | error e => rw [hv, exc_bind_error] at h; cases h
          | ok vv =>
            rw [hv, exc_bind_ok] at h
            cases ho : parseF env.parseFloat p.oprand with
            | error e => rw [ho, exc_bind_error] at h; cases h
            | ok ov =>
              rw [ho, exc_bind_ok] at h
              split at h
              · rw [exc_pure] at h
                injection h with h1
                split at h1
                · exact Or.inr h1.symm
                · exact Or.inl h1.symm
              · rw [exc_pure] at h
                injection h with h1
                split at h1
                · exact Or.inr h1.symm
                · exact Or.inl h1.symm

theorem scoreGet_setScore_mul (l : List (Str × ℚ)) (b : Str) (f : ℚ) :
    scoreGet (setScore l b (scoreGet l b * f)) b = scoreGet l b * f := by
  induction l with
  | nil => simp [scoreGet, setScore, updFirst, lookupA, zero_mul]
  | cons p rest ih =>
    obtain ⟨k, v⟩ := p
    by_cases hk : k = b
    · subst hk
      simp [scoreGet, setScore, updFirst, lookupA]
    · simp only [scoreGet, setScore, updFirst, if_neg hk, lookupA] at *
      exact ih

theorem scoreGet_setScore_other (l : List (Str × ℚ)) (b x : Str) (v : ℚ) (h : x ≠ b) :
    scoreGet (setScore l b v) x = scoreGet l x := by
  induction l with
  | nil => simp [scoreGet, setScore, updFirst]
  | cons p rest ih =>
    obtain ⟨k, w⟩ := p
    by_cases hk : k = b
    · have hkx : ¬ (k = x) := fun hh => h (hh.symm.trans hk)
      have hbx : ¬ (b = x) := fun hh => h hh.symm
      simp [scoreGet, setScore, updFirst, lookupA, hk, hkx, hbx]
    · simp only [setScore, updFirst, if_neg hk] at *
      by_cases hx : k = x
      · subst hx
        simp [scoreGet, lookupA]
      · simp only [scoreGet, lookupA, if_neg hx] at *
        exact ih

theorem scoreGet_initScores (bids : List Str) (b : Str) (h : b ∈ bids) :
    scoreGet (initScores bids) b = 1 := by
  induction bids with
  | nil => cases h
  | cons x xs ih =>
    by_cases hx : x = b
    · subst hx
      simp [initScores, scoreGet, lookupA]
    · rcases List.mem_cons.mp h with h1 | h1
      · exact absurd h1.symm hx
      · simp only [initScores, List.map_cons, scoreGet, lookupA, if_neg hx] at *
        exact ih h1

/-- One boolean-policy step, seen through `scoreGet`: the stepped entity is
multiplied by its factor, every other entity keeps its score. -/
theorem boolStep_scores (env : OpineEnv) (ents : List (Str × Entity)) (p : Pred)
    (scores scores1 : List (Str × ℚ)) (bid : Str)
    (h : boolStep env ents p scores bid = .ok scores1) :
    ∃ f, boolFactorE env ents p bid = .ok f ∧
      scoreGet scores1 bid = scoreGet scores bid * f ∧
      ∀ x, x ≠ bid → scoreGet scores1 x = scoreGet scores x := by
  rw [boolStep_eq_factor] at h
  cases hf : boolFactorE env ents p bid with
  | error e => rw [hf] at h; cases h
  | ok f =>
    rw [hf] at h
    simp only [Except.map] at h
    injection h with h1
    refine ⟨f, rfl, ?_, ?_⟩
    · rw [← h1]
      split
      · rename_i h2
        rw [h2, mul_one]
      · exact scoreGet_setScore_mul scores bid f
    · intro x hx
      rw [← h1]
      split
      · rfl
      · exact scoreGet_setScore_other scores bid x _ hx

/-- The inner boolean-policy loop over the candidates, for one predicate. -/
theorem boolFold_bids (env : OpineEnv) (ents : List (Str × Entity)) (p : Pred)
    (bids : List Str) (hnd : bids.Nodup) :
    ∀ (scores scores1 : List (Str × ℚ)),
      bids.foldlM (boolStep env ents p) scores = .ok scores1 →
      (∀ x, x ∉ bids → scoreGet scores1 x = scoreGet scores x) ∧
      (∀ x ∈ bids, ∃ f, boolFactorE env ents p x = .ok f ∧
        scoreGet scores1 x = scoreGet scores x * f) := by
  induction bids with
  | nil =>
    intro scores scores1 h
    injection h with h1
    subst h1
    exact ⟨fun x _ => rfl, fun x hx => absurd hx (List.not_mem_nil x)⟩
  | cons b bs ih =>
    intro scores scores1 h
    rw [List.foldlM_cons] at h
    have hndt : bs.Nodup := hnd.of_cons
    have hbnotin : b ∉ bs := (List.nodup_cons.mp hnd).1
    cases hs : boolStep env ents p scores b with
    | error e => rw [hs, exc_bind_error] at h; cases h
    | ok s2 =>
      rw [hs, exc_bind_ok] at h
      obtain ⟨hout, hin⟩ := ih hndt s2 scores1 h
      obtain ⟨f, hf, hfb, hfo⟩ := boolStep_scores env ents p scores s2 b hs
      constructor
      · intro x hx
        have hx1 : x ≠ b := fun hh => hx (hh ▸ List.mem_cons_self b bs)
        have hx2 : x ∉ bs := fun hh => hx (List.mem_cons_of_mem b hh)
        rw [hout x hx2, hfo x hx1]
      · intro x hx
        rcases List.mem_cons.mp hx with rfl | hx2
        · exact ⟨f, hf, by rw [hout x hbnotin, hfb]⟩
        · obtain ⟨g, hg, hgx⟩ := hin x hx2
          have hx1 : x ≠ b := fun hh => hbnotin (hh ▸ hx2)
          exact ⟨g, hg, by rw [hgx, hfo x hx1]⟩

/-- The outer boolean-policy loop over the predicates: each candidate ends
with its score multiplied by the product of its per-predicate factors. -/
theorem boolFold_preds (env : OpineEnv) (ents : List (Str × Entity)) (bids : List Str)
    (hnd : bids.Nodup) :
    ∀ (preds : List Pred) (scores scores1 : List (Str × ℚ)),
      preds.foldlM (fun sc p => bids.foldlM (boolStep env ents p) sc) scores =
        .ok scores1 →
      ∀ x ∈ bids, ∃ fs : List ℚ,
        List.Forall₂ (fun p f => boolFactorE env ents p x = .ok f) preds fs ∧
        scoreGet scores1 x = scoreGet scores x * fs.prod := by
  intro preds
  induction preds with
  | nil =>
    intro scores scores1 h x hx
    injection h with h1
    subst h1
    exact ⟨[], List.Forall₂.nil, by simp⟩
  | cons p ps ih =>
    intro scores scores1 h x hx
    rw [List.foldlM_cons] at h
    cases hs : bids.foldlM (boolStep env ents p) scores with
    | error e => rw [hs, exc_bind_error] at h; cases h
    | ok s2 =>
      rw [hs, exc_bind_ok] at h
      obtain ⟨f, hf, hfx⟩ := (boolFold_bids env ents p bids hnd scores s2 hs).2 x hx
      obtain ⟨fs, hfs, hprod⟩ := ih s2 scores1 h x hx
      exact ⟨f :: fs, List.Forall₂.cons hf hfs, by
        rw [hprod, hfx, List.prod_cons, mul_assoc]⟩

theorem eps15_pos : (0 : ℚ) < eps15 := by norm_num [eps15]

theorem eps15_lt_one : eps15 < 1 := by norm_num [eps15]

theorem forall₂_factor_prod_one (env : OpineEnv) (ents : List (Str × Entity)) (x : Str)
    (preds : List Pred) (fs : List ℚ)
    (h : List.Forall₂ (fun p f => boolFactorE env ents p x = .ok f) preds fs)
    (hall : ∀ p ∈ preds, boolFactorE env ents p x = .ok 1) : fs.prod = 1 := by
  induction h with
  | nil => rfl
  | @cons p f ps fs2 hpf htail ih =>
    have h1 := hall p (List.mem_cons_self _ _)
    rw [hpf] at h1
    injection h1 with h2
    rw [List.prod_cons, h2, one_mul]
    exact ih fun q hq => hall q (List.mem_cons_of_mem p hq)

theorem forall₂_factor_mem (env : OpineEnv) (ents : List (Str × Entity)) (x : Str)
    (preds : List Pred) (fs : List ℚ) (p0 : Pred)
    (h : List.Forall₂ (fun p f => boolFactorE env ents p x = .ok f) preds fs)
    (hp0 : p0 ∈ preds) (hval : boolFactorE env ents p0 x = .ok eps15) : eps15 ∈ fs := by
  induction h with
  | nil => cases hp0
  | @cons p f ps fs2 hpf htail ih =>
    rcases List.mem_cons.mp hp0 with rfl | hmem
    · rw [hpf] at hval
      injection hval with h2
      rw [← h2]
      exact List.mem_cons_self _ _
    · exact List.mem_cons_of_mem f (ih hmem)

theorem forall₂_factor_range (env : OpineEnv) (ents : List (Str × Entity)) (x : Str)
    (preds : List Pred) (fs : List ℚ)
    (h : List.Forall₂ (fun p f => boolFactorE env ents p x = .ok f) preds fs) :
    ∀ f ∈ fs, f = 1 ∨ f = eps15 := by
  induction h with
  | nil => intro f hf; cases hf
  | @cons p f ps fs2 hpf htail ih =>
    intro g hg
    rcases List.mem_cons.mp hg with rfl | hmem
    · exact boolFactorE_ok_range env ents p x g hpf
    · exact ih g hmem

theorem prod_factors (fs : List ℚ) (hall : ∀ f ∈ fs, f = 1 ∨ f = eps15) :
    fs.prod ≤ 1 ∧ 0 < fs.prod ∧ (eps15 ∈ fs → fs.prod ≤ eps15) := by
  induction fs with
  | nil =>
    refine ⟨le_refl _, one_pos, fun hmem => absurd hmem (List.not_mem_nil _)⟩
  | cons f fs ih =>
    have hallt : ∀ g ∈ fs, g = 1 ∨ g = eps15 := fun g hg =>
      hall g (List.mem_cons_of_mem f hg)
    obtain ⟨hle, hpos, hmem⟩ := ih hallt
    rcases hall f (List.mem_cons_self f fs) with rfl | rfl
    · refine ⟨by rw [List.prod_cons, one_mul]; exact hle,
        by rw [List.prod_cons, one_mul]; exact hpos, fun hin => ?_⟩
      rw [List.prod_cons, one_mul]
      rcases List.mem_cons.mp hin with h1 | h1
      · norm_num [eps15] at h1
      · exact hmem h1
    · rw [List.prod_cons]
      refine ⟨?_, mul_pos eps15_pos hpos, fun _ => ?_⟩
      · calc eps15 * fs.prod ≤ eps15 * 1 :=
            mul_le_mul_of_nonneg_left hle (le_of_lt eps15_pos)
          _ = eps15 := mul_one _
          _ ≤ 1 := le_of_lt eps15_lt_one
      · calc eps15 * fs.prod ≤ eps15 * 1 :=
            mul_le_mul_of_nonneg_left hle (le_of_lt eps15_pos)
          _ = eps15 := mul_one _

/-- C1 (amended): under the boolean objective policy, for a query with no
subjective terms (objective-only), every candidate that satisfies (or is
skipped by) every predicate is ranked strictly above every candidate that
violates at least one predicate; with subjective terms present the claim as
stated fails, because the 1e-15 penalty can be overwhelmed by differences
in the candidates' subjective score products. -/
theorem C1_amended (env : OpineEnv) (query : List Str) (preds : List Pred)
    (bids : List Str) (mode : Str) (mc0 : List (MKey × ℚ)) (out : List Str) (st : RunSt)
    (a b : Str)
    (hrun : opineRun env mode (S "boolean") query (some bids) mc0 = .ok (out, st))
    (hdec : decompose query = .ok ([], preds))
    (hnd : bids.Nodup) (ha : a ∈ bids) (hb : b ∈ bids)
    (hA : ∀ p ∈ preds, boolFactorE env env.ents p a = .ok 1)
    (hB : ∃ p ∈ preds, boolFactorE env env.ents p b = .ok eps15) :
    out.indexOf a < out.indexOf b := by
  unfold opineRun at hrun
  rw [hdec, exc_bind_ok] at hrun
  dsimp only at hrun
  rw [List.foldlM_nil, exc_pure, exc_bind_ok] at hrun
  unfold policyPhase at hrun
  have hns : ¬ (S "boolean" = S "sensitive") := by decide
  have hna : ¬ (S "boolean" = S "agnostic") := by decide
  rw [if_neg hns, if_neg hna, if_pos rfl] at hrun
  cases hsc : preds.foldlM
      (fun sc p => bids.foldlM (boolStep env env.ents p) sc) (initScores bids) with
  | error e =>
    rw [hsc, exc_bind_error] at hrun
    cases hrun
  | ok sc =>
    rw [hsc, exc_bind_ok, exc_pure, exc_bind_ok, exc_pure] at hrun
    injection hrun with h1
    injection h1 with hout hst
    obtain ⟨fsa, hfsa, hspa⟩ :=
      boolFold_preds env env.ents bids hnd preds (initScores bids) sc hsc a ha
    obtain ⟨fsb, hfsb, hspb⟩ :=
      boolFold_preds env env.ents bids hnd preds (initScores bids) sc hsc b hb
    have hprodA : fsa.prod = 1 := forall₂_factor_prod_one env env.ents a preds fsa hfsa hA
    have hscoreA : scoreGet sc a = 1 := by
      rw [hspa, scoreGet_initScores bids a ha, hprodA, one_mul]
    obtain ⟨p0, hp0, hvp0⟩ := hB
    have hmem15 : eps15 ∈ fsb := forall₂_factor_mem env env.ents b preds fsb p0 hfsb hp0 hvp0
    have hrange := forall₂_factor_range env env.ents b preds fsb hfsb
    obtain ⟨hle1, hpos, hle15⟩ := prod_factors fsb hrange
    have hscoreB : scoreGet sc b ≤ eps15 := by
      rw [hspb, scoreGet_initScores bids b hb, one_mul]
      exact hle15 hmem15
    have hlt : scoreGet sc b < scoreGet sc a := by
      rw [hscoreA]
      exact lt_of_le_of_lt hscoreB eps15_lt_one
    have hk : (fun y => -(scoreGet sc y)) a < (fun y => -(scoreGet sc y)) b := by
      simpa using hlt
    rw [← hout]
    dsimp only
    exact sorted_indexOf_lt (fun y => -(scoreGet sc y)) _ a b
      (sortByKey_sorted _ _)
      ((sortByKey_perm _ _).mem_iff.mpr ha)
      ((sortByKey_perm _ _).mem_iff.mpr hb) hk

/-- C1 (counterexample): with three subjective terms and the boolean
policy, candidate A satisfies the single boolean predicate (factor 1),
candidate B violates it (factor 1e-15), yet `opine` ranks B strictly above
A: A's subjective product is (1e-6)^3 = 1e-18, below B's (1/2)^3 * 1e-15 =
1.25e-16, so a satisfying candidate is NOT ranked above a violating one. -/
theorem C1_counterexample :
    opine c1Env (S "marker") (S "boolean")
        [S "t1", S "t2", S "t3", S "bool:wifi = true"] (some [S "A", S "B"]) [] =
      .ok [S "B", S "A"] ∧
    boolFactorE c1Env c1Ents ⟨S "bool", S "wifi", S "=", S "true"⟩ (S "A") = .ok 1 ∧
    boolFactorE c1Env c1Ents ⟨S "bool", S "wifi", S "=", S "true"⟩ (S "B") = .ok eps15 := by
  refine ⟨?_, rfl, rfl⟩
  simp [opine, opineRun, decompose, decStep, splitPred, splitCh, S, policyPhase,
    subjStep, subjBidStep, membership, membershipObjTail, get_features_obj,
    get_features_summary, markerFeats, meanSenti, boolStep, getEnt, lookupA, updFirst,
    setSumm, setScore, scoreGet, initScores, sortByKey, insKey, toLow, cateMismatch,
    eps6, eps15, c1Env, c1Ents, c1A, c1B, List.foldlM_cons, List.foldlM_nil,
    exc_bind_ok, exc_bind_error, exc_pure, Except.map]
  norm_num

theorem C1_amended_witness :
    ([S "A", S "B"] : List Str).indexOf (S "A") < ([S "A", S "B"] : List Str).indexOf (S "B") :=
  C1_amended c1Env [S "bool:wifi = true"] [⟨S "bool", S "wifi", S "=", S "true"⟩]
    [S "A", S "B"] (S "marker") [] [S "A", S "B"] c1wSt (S "A") (S "B")
    (by
      simp [opineRun, decompose, decStep, splitPred, splitCh, S, policyPhase,
        boolStep, getEnt, lookupA, updFirst, setScore, scoreGet, initScores,
        sortByKey, insKey, toLow, eps15, c1Env, c1Ents, c1A, c1B, c1wSt,
        List.foldlM_cons, List.foldlM_nil, exc_bind_ok, exc_bind_error, exc_pure]
      norm_num)
    rfl (by decide) (by decide) (by decide)
    (by
      intro p hp
      simp only [List.mem_singleton] at hp
      subst hp
      rfl)
    ⟨⟨S "bool", S "wifi", S "=", S "true"⟩, by simp, rfl⟩

/-! ### Claim C7 -/

theorem lookupA_none_not_mem {α β : Type} [DecidableEq α] (l : List (α × β)) (a : α)
    (h : lookupA l a = none) : a ∉ l.map Prod.fst := by
  induction l with
  | nil => simp
  | cons p rest ih =>
    simp only [lookupA] at h
    by_cases hk : p.1 = a
    · rw [if_pos hk] at h; cases h
    · rw [if_neg hk] at h
      simp only [List.map_cons, List.mem_cons]
      rintro (h1 | h1)
      · exact hk h1.symm
      · exact ih h h1

theorem lookupA_some_mem {α β : Type} [DecidableEq α] (l : List (α × β)) (a : α) (b : β)
    (h : lookupA l a = some b) : (a, b) ∈ l := by
  induction l with
  | nil => cases h
  | cons p rest ih =>
    simp only [lookupA] at h
    by_cases hk : p.1 = a
    · rw [if_pos hk] at h
      injection h with h1
      have : (a, b) = p := by
        rw [← hk, ← h1]
      rw [this]
      exact List.mem_cons_self p rest
    · rw [if_neg hk] at h
      exact List.mem_cons_of_mem p (ih h)

theorem lookupA_of_mem_nodup {α β : Type} [DecidableEq α] (l : List (α × β)) (a : α)
    (b : β) (hnd : (l.map Prod.fst).Nodup) (hmem : (a, b) ∈ l) : lookupA l a = some b := by
  induction l with
  | nil => cases hmem
  | cons p rest ih =>
    rcases List.mem_cons.mp hmem with h1 | h1
    · rw [← h1]
      simp [lookupA]
    · have hnd2 : (rest.map Prod.fst).Nodup := (List.nodup_cons.mp hnd).2
      have hne : p.1 ≠ a := by
        intro hq
        have : p.1 ∈ rest.map Prod.fst := by
          rw [hq]
          exact List.mem_map.mpr ⟨(a, b), h1, rfl⟩
        exact (List.nodup_cons.mp hnd).1 this
      simp only [lookupA, if_neg hne]
      exact ih hnd2 h1

theorem lookupA_isSome_of_mem_fst {α β : Type} [DecidableEq α] (l : List (α × β)) (a : α)
    (h : a ∈ l.map Prod.fst) : (lookupA l a).isSome = true := by
  induction l with
  | nil => cases h
  | cons p rest ih =>
    by_cases hk : p.1 = a
    · simp [lookupA, hk]
    · simp only [List.map_cons, List.mem_cons] at h
      rcases h with h1 | h1
      · exact absurd h1.symm hk
      · simp only [lookupA, if_neg hk]
        exact ih h1

theorem updFirst_map_fst {α β : Type} [DecidableEq α] (l : List (α × β)) (a : α) (b : β) :
    (updFirst l a b).map Prod.fst = l.map Prod.fst := by
  induction l with
  | nil => rfl
  | cons p rest ih =>
    obtain ⟨k, v⟩ := p
    by_cases hk : k = a
    · subst hk
      simp [updFirst]
    · simp only [updFirst, if_neg hk, List.map_cons, ih]

theorem mem_updFirst {α β : Type} [DecidableEq α] (l : List (α × β)) (a : α) (b : β)
    (p : α × β) (h : p ∈ updFirst l a b) : p ∈ l ∨ p = (a, b) := by
  induction l with
  | nil => cases h
  | cons q rest ih =>
    obtain ⟨k, v⟩ := q
    by_cases hk : k = a
    · subst hk
      simp only [updFirst, if_pos rfl] at h
      rcases List.mem_cons.mp h with h1 | h1
      · right; rw [h1]
      · left; exact List.mem_cons_of_mem _ h1
    · simp only [updFirst, if_neg hk] at h
      rcases List.mem_cons.mp h with h1 | h1
      · left; rw [h1]; exact List.mem_cons_self _ _
      · rcases ih h1 with h2 | h2
        · left; exact List.mem_cons_of_mem _ h2
        · right; exact h2

theorem bvFold_some_stays (l : List (Str × ℚ)) :
    ∀ (v : ℚ) (a : Str), ∃ b, (l.foldl bvStep (v, some a)).2 = some b := by
  induction l with
  | nil => exact fun v a => ⟨a, rfl⟩
  | cons p ps ih =>
    intro v a
    simp only [List.foldl_cons, bvStep]
    by_cases hc : v < p.2
    · simp only [if_pos hc]
      exact ih p.2 p.1
    · simp only [if_neg hc]
      exact ih v a

theorem bvFold_none_iff (l : List (Str × ℚ)) :
    ∀ m : ℚ, ((l.foldl bvStep (m, none)).2 = none ↔ ∀ p ∈ l, p.2 ≤ m) := by
  induction l with
  | nil => intro m; simp
  | cons p ps ih =>
    intro m
    simp only [List.foldl_cons, bvStep]
    by_cases hc : m < p.2
    · simp only [if_pos hc]
      obtain ⟨b, hb⟩ := bvFold_some_stays ps p.2 p.1
      constructor
      · intro h
        rw [hb] at h
        cases h
      · intro h
        exact absurd (h p (List.mem_cons_self p ps)) (not_le.mpr hc)
    · simp only [if_neg hc]
      rw [ih m]
      constructor
      · intro h q hq
        rcases List.mem_cons.mp hq with rfl | hq2
        · exact le_of_not_lt hc
        · exact h q hq2
      · intro h q hq
        exact h q (List.mem_cons_of_mem p hq)

theorem bvFold_ge (l : List (Str × ℚ)) :
    ∀ (m : ℚ) (b : Option Str), m ≤ (l.foldl bvStep (m, b)).1 ∧
      ∀ p ∈ l, p.2 ≤ (l.foldl bvStep (m, b)).1 := by
  induction l with
  | nil =>
    intro m b
    exact ⟨le_refl m, fun p hp => absurd hp (List.not_mem_nil p)⟩
  | cons p ps ih =>
    intro m b
    simp only [List.foldl_cons, bvStep]
    by_cases hc : m < p.2
    · simp only [if_pos hc]
      obtain ⟨h1, h2⟩ := ih p.2 (some p.1)
      refine ⟨le_of_lt (lt_of_lt_of_le hc h1), fun q hq => ?_⟩
      rcases List.mem_cons.mp hq with rfl | hq2
      · exact h1
      · exact h2 q hq2
    · simp only [if_neg hc]
      obtain ⟨h1, h2⟩ := ih m b
      refine ⟨h1, fun q hq => ?_⟩
      rcases List.mem_cons.mp hq with rfl | hq2
      · exact le_trans (le_of_not_lt hc) h1
      · exact h2 q hq2

theorem bvFold_mem (l : List (Str × ℚ)) :
    ∀ (m : ℚ) (b : Option Str) (a : Str),
      (l.foldl bvStep (m, b)).2 = some a →
      (b = some a ∧ (l.foldl bvStep (m, b)).1 = m) ∨ (a, (l.foldl bvStep (m, b)).1) ∈ l := by
  induction l with
  | nil =>
    intro m b a h
    exact Or.inl ⟨h, rfl⟩
  | cons p ps ih =>
    intro m b a h
    simp only [List.foldl_cons, bvStep] at h ⊢
    by_cases hc : m < p.2
    · simp only [if_pos hc] at h ⊢
      rcases ih p.2 (some p.1) a h with ⟨h1, h2⟩ | h1
      · injection h1 with h3
        refine Or.inr ?_
        have hp : (a, (ps.foldl bvStep (p.2, some p.1)).1) = p := by
          rw [← h3, h2]
        rw [hp]
        exact List.mem_cons_self p ps
      · exact Or.inr (List.mem_cons_of_mem p h1)
    · simp only [if_neg hc] at h ⊢
      rcases ih m b a h with ⟨h1, h2⟩ | h1
      · exact Or.inl ⟨h1, h2⟩
      · exact Or.inr (List.mem_cons_of_mem p h1)

theorem reviewVote_attr (c : Cooc) (qterm : Str) (r : Review) (a ph : Str)
    (h : reviewVote c qterm r = some (a, ph)) : ∃ ext ∈ r.extractions, ext.attr = a := by
  unfold reviewVote at h
  dsimp only at h
  have key : ∀ (l : List Extraction) (acc : Int × Str × Option Str) (a2 : Str),
      (l.foldl (distStep c r qterm) acc).2.2 = some a2 →
      acc.2.2 = some a2 ∨ ∃ ext ∈ l, ext.attr = a2 := by
    intro l
    induction l with
    | nil => exact fun acc a2 hh => Or.inl hh
    | cons ext exts ih =>
      intro acc a2 hh
      simp only [List.foldl_cons, distStep] at hh
      by_cases hc : 0 ≤ get_dist c r (ext.predicate ++ [' '] ++ ext.entity) qterm ∧
          (acc.1 < 0 ∨ get_dist c r (ext.predicate ++ [' '] ++ ext.entity) qterm < acc.1)
      · rw [if_pos hc] at hh
        rcases ih _ a2 hh with h1 | h1
        · injection h1 with h2
          exact Or.inr ⟨ext, List.mem_cons_self ext exts, h2⟩
        · obtain ⟨e2, he2, ha2⟩ := h1
          exact Or.inr ⟨e2, List.mem_cons_of_mem ext he2, ha2⟩
      · rw [if_neg hc] at hh
        rcases ih acc a2 hh with h1 | h1
        · exact Or.inl h1
        · obtain ⟨e2, he2, ha2⟩ := h1
          exact Or.inr ⟨e2, List.mem_cons_of_mem ext he2, ha2⟩
  cases hf : (r.extractions.foldl (distStep c r qterm) (-1, [], none)).2.2 with
  | none => rw [hf] at h; cases h
  | some a2 =>
    rw [hf] at h
    injection h with h1
    have : a2 = a := by
      have := congrArg Prod.fst h1
      exact this
    rcases key r.extractions (-1, [], none) a2 hf with h2 | h2
    · cases h2
    · rw [← this]
      exact h2

theorem retained_mem_reviews (c : Cooc) (qterm : Str) (r : Review)
    (h : r ∈ retainedReviews c qterm) : r ∈ c.reviews := by
  unfold retainedReviews at h
  have h1 := List.mem_of_mem_filter h
  have h2 := List.mem_of_mem_take h1
  exact (sortByKey_perm _ _).mem_iff.mp h2

theorem attrCount_pos_of_extraction (c : Cooc) (r : Review) (ext : Extraction)
    (hr : r ∈ c.reviews) (he : ext ∈ r.extractions) : 0 < attrCount c ext.attr := by
  unfold attrCount
  have hpos : 0 < (c.reviews.flatMap Review.extractions).countP fun e =>
      decide (e.attr = ext.attr) := by
    rw [List.countP_pos_iff]
    exact ⟨ext, List.mem_flatMap.mpr ⟨r, hr, he⟩, by simp⟩
  exact_mod_cast hpos

theorem voteStep_inv (c : Cooc) (qterm : Str) (acc : List (Str × ℚ) × List (Str × Str))
    (r : Review) (hr : r ∈ c.reviews) (hinv : voteInv c acc) :
    voteInv c (voteStep c qterm acc r) := by
  obtain ⟨hcnt, hnd, hkeys⟩ := hinv
  unfold voteStep
  cases hv : reviewVote c qterm r with
  | none => exact ⟨hcnt, hnd, hkeys⟩
  | some pr =>
    obtain ⟨a, ph⟩ := pr
    obtain ⟨ext, hext, hexta⟩ := reviewVote_attr c qterm r a ph hv
    have hapos : 0 < attrCount c a := hexta ▸ attrCount_pos_of_extraction c r ext hr hext
    dsimp only
    cases hl : lookupA acc.1 a with
    | none =>
      have hnotin := lookupA_none_not_mem acc.1 a hl
      dsimp only
      refine ⟨?_, ?_, ?_⟩
      · intro p hp
        rcases List.mem_append.mp hp with h1 | h1
        · exact hcnt p h1
        · rcases List.mem_singleton.mp h1 with rfl
          exact ⟨le_refl 1, hapos⟩
      · rw [List.map_append]
        simp only [List.map_cons, List.map_nil]
        exact List.Nodup.append hnd (List.nodup_singleton a)
          (List.disjoint_singleton.mpr hnotin)
      · simp [List.map_append, hkeys]
    | some n =>
      have hmem := lookupA_some_mem acc.1 a n hl
      dsimp only
      refine ⟨?_, ?_, ?_⟩
      · intro p hp
        rcases mem_updFirst acc.1 a (n + 1) p hp with h1 | h1
        · exact hcnt p h1
        · rw [h1]
          refine ⟨?_, hapos⟩
          have h2 : (1 : ℚ) ≤ n := (hcnt (a, n) hmem).1
          show (1 : ℚ) ≤ n + 1
          linarith
      · rw [updFirst_map_fst]
        exact hnd
      · rw [updFirst_map_fst]
        exact hkeys

theorem voteFold_inv (c : Cooc) (qterm : Str) :
    ∀ (rs : List Review), (∀ r ∈ rs, r ∈ c.reviews) →
      ∀ acc, voteInv c acc → voteInv c (rs.foldl (voteStep c qterm) acc) := by
  intro rs
  induction rs with
  | nil => exact fun _ acc h => h
  | cons r rest ih =>
    intro hrs acc hinv
    rw [List.foldl_cons]
    exact ih (fun x hx => hrs x (List.mem_cons_of_mem r hx)) _
      (voteStep_inv c qterm acc r (hrs r (List.mem_cons_self r rest)) hinv)

theorem updFirst_ne_nil {α β : Type} [DecidableEq α] (l : List (α × β)) (a : α) (b : β)
    (h : l ≠ []) : updFirst l a b ≠ [] := by
  cases l with
  | nil => exact absurd rfl h
  | cons p rest =>
    obtain ⟨k, v⟩ := p
    by_cases hk : k = a <;> simp [updFirst, hk]

theorem voteStep_some_ne_nil (c : Cooc) (qterm : Str)
    (acc : List (Str × ℚ) × List (Str × Str)) (r : Review) (a ph : Str)
    (hv : reviewVote c qterm r = some (a, ph)) : (voteStep c qterm acc r).1 ≠ [] := by
  unfold voteStep
  rw [hv]
  dsimp only
  cases hl : lookupA acc.1 a with
  | none => simp [hl]
  | some n =>
    simp only [hl]
    have hne : acc.1 ≠ [] := by
      intro h0
      rw [h0] at hl
      cases hl
    exact updFirst_ne_nil acc.1 a (n + 1) hne

theorem voteStep_ne_nil (c : Cooc) (qterm : Str) (acc : List (Str × ℚ) × List (Str × Str))
    (r : Review) (h : acc.1 ≠ []) : (voteStep c qterm acc r).1 ≠ [] := by
  cases hv : reviewVote c qterm r with
  | none =>
    have hstep : voteStep c qterm acc r = acc := by
      unfold voteStep
      rw [hv]
    rw [hstep]
    exact h
  | some pr =>
    obtain ⟨a, ph⟩ := pr
    exact voteStep_some_ne_nil c qterm acc r a ph hv

theorem voteFold_ne_nil (c : Cooc) (qterm : Str) :
    ∀ (rs : List Review) (acc), acc.1 ≠ [] → (rs.foldl (voteStep c qterm) acc).1 ≠ [] := by
  intro rs
  induction rs with
  | nil => exact fun acc h => h
  | cons r rest ih =>
    intro acc h
    rw [List.foldl_cons]
    exact ih _ (voteStep_ne_nil c qterm acc r h)

theorem voteFold_nil_iff (c : Cooc) (qterm : Str) :
    ∀ (rs : List Review) (acc),
      ((rs.foldl (voteStep c qterm) acc).1 = [] ↔
        (acc.1 = [] ∧ ∀ r ∈ rs, reviewVote c qterm r = none)) := by
  intro rs
  induction rs with
  | nil =>
    intro acc
    simp
  | cons r rest ih =>
    intro acc
    rw [List.foldl_cons]
    cases hv : reviewVote c qterm r with
    | none =>
      have hstep : voteStep c qterm acc r = acc := by
        unfold voteStep
        rw [hv]
      rw [hstep, ih acc]
      constructor
      · rintro ⟨h1, h2⟩
        refine ⟨h1, fun x hx => ?_⟩
        rcases List.mem_cons.mp hx with rfl | hx2
        · exact hv
        · exact h2 x hx2
      · rintro ⟨h1, h2⟩
        exact ⟨h1, fun x hx => h2 x (List.mem_cons_of_mem r hx)⟩
    | some pr =>
      obtain ⟨a, ph⟩ := pr
      have hne : (voteStep c qterm acc r).1 ≠ [] :=
        voteStep_some_ne_nil c qterm acc r a ph hv
      have hfoldne := voteFold_ne_nil c qterm rest _ hne
      constructor
      · intro h
        exact absurd h hfoldne
      · rintro ⟨h1, h2⟩
        have := h2 r (List.mem_cons_self r rest)
        rw [hv] at this
        cases this

/-- C7 (amended): provided every attribute occurring in the corpus has a
strictly positive IDF weight, `CooccurInterpreter.interpret` (on a cache
miss) returns (null, null) if and only if no retained review (top ten by
relevance-times-sentiment, non-positive scores skipped) yielded a
positional co-occurrence; and when it returns an attribute, that attribute
carries a maximal IDF-weighted vote count and comes with its remembered
representative phrase.  Without the positivity proviso the iff fails: an
attribute of IDF zero (one appearing in every extraction) can never win the
strictly-greater-than-zero arg-max. -/
theorem C7_amended (c : Cooc) (cache : CoocCache) (qterm : Str)
    (hmiss : lookupA cache qterm = none)
    (hidf : ∀ a, 0 < attrCount c a → 0 < idfA c a) :
    ((coocInterpret c cache qterm).1.1 = none ↔
      ∀ r ∈ retainedReviews c qterm, reviewVote c qterm r = none) ∧
    ∀ a, (coocInterpret c cache qterm).1.1 = some a →
      (coocInterpret c cache qterm).1.2 = lookupA (collectVotes c qterm).2 a ∧
      (lookupA (collectVotes c qterm).2 a).isSome = true ∧
      ∃ n, lookupA (collectVotes c qterm).1 a = some n ∧
        ∀ p ∈ (collectVotes c qterm).1,
          p.2 * idfA c p.1 ≤ n * idfA c a := by
  have hco : coocInterpret c cache qterm = (computeCooc c qterm, cache) := by
    unfold coocInterpret
    rw [hmiss]
  have hinv : voteInv c (collectVotes c qterm) := by
    unfold collectVotes
    exact voteFold_inv c qterm (retainedReviews c qterm)
      (fun r hr => retained_mem_reviews c qterm r hr) ([], [])
      ⟨fun p hp => absurd hp (List.not_mem_nil p), List.nodup_nil, rfl⟩
  obtain ⟨hcnt, hnd, hkeys⟩ := hinv
  have hnil_iff : ((collectVotes c qterm).1 = [] ↔
      ∀ r ∈ retainedReviews c qterm, reviewVote c qterm r = none) := by
    unfold collectVotes
    rw [voteFold_nil_iff c qterm (retainedReviews c qterm) ([], [])]
    simp
  rw [hco]
  constructor
  · show (computeCooc c qterm).1 = none ↔ _
    unfold computeCooc
    dsimp only
    cases hbv : (bestVote
        ((collectVotes c qterm).1.map fun p => (p.1, p.2 * idfA c p.1))).2 with
    | none =>
      dsimp only
      constructor
      · intro _
        have hall := (bvFold_none_iff _ 0).mp hbv
        have hvnil : (collectVotes c qterm).1 = [] := by
          cases hv : (collectVotes c qterm).1 with
          | nil => rfl
          | cons q qs =>
            have hq : q ∈ (collectVotes c qterm).1 := hv ▸ List.mem_cons_self q qs
            obtain ⟨h1, h2⟩ := hcnt q hq
            have hwpos : 0 < q.2 * idfA c q.1 :=
              mul_pos (lt_of_lt_of_le zero_lt_one h1) (hidf q.1 h2)
            have hwin : (q.1, q.2 * idfA c q.1) ∈
                (collectVotes c qterm).1.map (fun p => (p.1, p.2 * idfA c p.1)) :=
              List.mem_map.mpr ⟨q, hq, rfl⟩
            exact absurd hwpos (not_lt.mpr (hall _ hwin))
        exact hnil_iff.mp hvnil
      · intro _
        rfl
    | some a =>
      dsimp only
      constructor
      · intro hcontra
        cases hcontra
      · intro hforall
        have hvnil := hnil_iff.mpr hforall
        rw [hvnil] at hbv
        simp [bestVote] at hbv
  · intro a ha
    have ha2 : (computeCooc c qterm).1 = some a := ha
    unfold computeCooc at ha2 ⊢
    dsimp only at ha2 ⊢
    cases hbv : (bestVote
        ((collectVotes c qterm).1.map fun p => (p.1, p.2 * idfA c p.1))).2 with
    | none =>
      rw [hbv] at ha2
      cases ha2
    | some a2 =>
      rw [hbv] at ha2
      dsimp only at ha2
      injection ha2 with ha3
      rw [ha3] at hbv ⊢
      have hmem : (a, (bestVote
          ((collectVotes c qterm).1.map fun p => (p.1, p.2 * idfA c p.1))).1) ∈
          (collectVotes c qterm).1.map fun p => (p.1, p.2 * idfA c p.1) := by
        rcases bvFold_mem _ 0 none a hbv with ⟨h1, _⟩ | h1
        · cases h1
        · exact h1
      obtain ⟨q, hq, hqeq⟩ := List.mem_map.mp hmem
      have hq1 : q.1 = a := congrArg Prod.fst hqeq
      have hq2 : q.2 * idfA c q.1 = (bestVote
          ((collectVotes c qterm).1.map fun p => (p.1, p.2 * idfA c p.1))).1 :=
        congrArg Prod.snd hqeq
      have hkeymem : a ∈ (collectVotes c qterm).1.map Prod.fst := by
        rw [← hq1]
        exact List.mem_map.mpr ⟨q, hq, rfl⟩
      refine ⟨rfl, ?_, ?_⟩
      · exact lookupA_isSome_of_mem_fst _ a (hkeys ▸ hkeymem)
      · refine ⟨q.2, ?_, ?_⟩
        · have : (a, q.2) ∈ (collectVotes c qterm).1 := by
            rw [← hq1]
            exact hq
          exact lookupA_of_mem_nodup _ a q.2 hnd this
        · intro p hp
          have hple := (bvFold_ge
              ((collectVotes c qterm).1.map fun p => (p.1, p.2 * idfA c p.1)) 0 none).2
            (p.1, p.2 * idfA c p.1) (List.mem_map.mpr ⟨p, hp, rfl⟩)
          rw [← hq1, hq2]
          exact hple

/-- C7 (counterexample): the single retained review yields a positional
co-occurrence (its span contains the query term), yet `interpret` returns
(null, null): the sole attribute has IDF log2(1) = 0, so its weighted vote
count 1 * 0 never exceeds the arg-max seed of zero. -/
theorem C7_counterexample :
    (coocInterpret c7Cooc [] (S "food")).1 = (none, none) ∧
    ∃ r ∈ retainedReviews c7Cooc (S "food"),
      reviewVote c7Cooc (S "food") r ≠ none := by
  have hret : retainedReviews c7Cooc (S "food") = [c7Rev] := by
    norm_num [retainedReviews, sortByKey, insKey, List.filter, score_mp, c7Cooc, c7Rev]
  have hvote : reviewVote c7Cooc (S "food") c7Rev =
      some (S "food", S "good food") := rfl
  have hcv : collectVotes c7Cooc (S "food") =
      ([(S "food", 1)], [(S "food", S "good food")]) := by
    unfold collectVotes
    rw [hret]
    simp [voteStep, hvote, lookupA]
  have hcc : computeCooc c7Cooc (S "food") = (none, none) := by
    unfold computeCooc
    rw [hcv]
    norm_num [bestVote, bvStep, idfA, c7Cooc, lookupA]
  have hcache : coocInterpret c7Cooc [] (S "food") =
      (computeCooc c7Cooc (S "food"), []) := rfl
  constructor
  · rw [hcache, hcc]
  · refine ⟨c7Rev, ?_, ?_⟩
    · rw [hret]
      exact List.mem_singleton.mpr rfl
    · rw [hvote]
      simp

theorem C7_amended_witness :
    ((coocInterpret c7wCooc [] (S "food")).1.1 = none ↔
      ∀ r ∈ retainedReviews c7wCooc (S "food"),
        reviewVote c7wCooc (S "food") r = none) :=
  (C7_amended c7wCooc [] (S "food") rfl
    (fun a _ => by norm_num [idfA, c7wCooc])).1

